import Mathlib

/-!
# Verification of the mozsearch grokysis knowledge-base and diagramming layer

This file gives a shallow embedding of the JavaScript sources of the
repository (the `KnowledgeBase` class with `normalizeSymbol`,
`lookupRawSymbol`, `ensureSymbolAnalysis`, `_analyzeSymbol` and
`ensureFileAnalysis`; the `TransitiveCallDoodler.doodleCalls` traversal; and
the `HierNodeGenerator._processDeferredBlock` / `edgeCommon` third pass) and
proves or refutes the stated properties of those functions.

Modelling conventions:
* JavaScript numbers that matter here are modelled by `JSNum`
  (`undef`/`nan`/`int`), capturing the truthiness and the `Math.min` /
  subtraction / `<` behaviour of `undefined` and `NaN` that the hop-budget
  logic relies on.
* JS `Map`s become insertion-ordered association lists, JS `Set`s become
  duplicate-free insertion-ordered lists (`setAdd`).
* Object identity of `SymbolInfo` / `FileInfo` / `HierNode` instances is
  modelled by numeric ids allocated from a counter; the record contents live
  in total functions from ids to records.
* The single-threaded await-to-completion execution of the async methods is
  modelled by a fuel-indexed interpreter `kbRun`; the backend search is an
  oracle `SearchEnv` (an opaque RPC per the spec).  Console logging is not
  modelled except where a claim mentions it (the generator's `warnLog`).
-/

namespace Grokysis

/-- JavaScript numeric values reaching the knowledge-base hop logic:
`undefined` (an omitted argument), `NaN`, or an integer. -/
inductive JSNum where
  | undef
  | nan
  | int (n : Int)
deriving DecidableEq, Repr

namespace JSNum

/-- JS truthiness of such a value: `undefined`, `NaN` and `0` are falsy. -/
def truthy : JSNum → Bool
  | .undef => false
  | .nan => false
  | .int n => n != 0

/-- `Math.min(2, x)`: `undefined` is coerced to `NaN`, and `Math.min`
returns `NaN` if any argument is `NaN`. -/
def minTwo : JSNum → JSNum
  | .undef => .nan
  | .nan => .nan
  | .int n => .int (min 2 n)

/-- `x - 1` in JS: `undefined - 1` and `NaN - 1` are `NaN`. -/
def subOne : JSNum → JSNum
  | .undef => .nan
  | .nan => .nan
  | .int n => .int (n - 1)

/-- JS `<` on these values: any comparison involving `undefined` (coerced to
`NaN`) or `NaN` is false. -/
def lt : JSNum → JSNum → Bool
  | .int a, .int b => a < b
  | _, _ => false

/-- JS `>`: `a > b` holds exactly when `b < a` does (false on NaN). -/
def gt (a b : JSNum) : Bool := lt b a

theorem not_gt_two_minTwo (h : JSNum) : gt (minTwo h) (.int 2) = false := by
  cases h <;> simp [gt, lt, minTwo]

end JSNum

/-- JS truthiness of an optional string: `undefined`/`null` and the empty
string are falsy. -/
def strTruthy : Option String → Bool
  | none => false
  | some s => !s.isEmpty

/-- The prefix of a character list before its first comma
(`symStr.split(',', 1)[0]`). -/
def takeUntilComma : List Char → List Char
  | [] => []
  | c :: rest => if c = ',' then [] else c :: takeUntilComma rest

/-- `normalizeSymbol(symStr, commaExpected)` from `KnowledgeBase`: a falsy
input yields `null`; a comma-delimited name is cut down to its first
comma-separated component (logging when `commaExpected` is false, which we do
not model); anything else passes through. -/
def normalizeSymbol (symStr : Option String) (_commaExpected : Bool) :
    Option String :=
  match symStr with
  | none => none
  | some s =>
    if s = "" then none
    else if s.toList.contains ',' then some (String.mk (takeUntilComma s.toList))
    else some s

/-- The `doAnalyze` argument of `lookupRawSymbol`: omitted, a boolean, or a
numeric hop budget. -/
inductive DoAnalyze where
  | undef
  | bool (b : Bool)
  | num (x : JSNum)
deriving DecidableEq, Repr

namespace DoAnalyze

/-- JS truthiness of the `doAnalyze` argument. -/
def truthy : DoAnalyze → Bool
  | .undef => false
  | .bool b => b
  | .num x => x.truthy

/-- The value of `hops = doAnalyze` in the non-`=== true` branch.  At that
call site `doAnalyze` is always a truthy number; the other constructors are
unreachable there and map to `NaN`. -/
def toHops : DoAnalyze → JSNum
  | .num x => x
  | _ => .nan

end DoAnalyze

/-- The `opts` bag accepted by `lookupRawSymbol` (path hints and syntax
kind); an absent `opts` is the record of `none`s. -/
structure LookupOpts where
  somePath : Option String := none
  headerPath : Option String := none
  sourcePath : Option String := none
  syntaxKind : Option String := none
deriving DecidableEq, Repr

/-- One `SymbolInfo` record.  Modelled from the spec: `symbol_info.js` is not
among the sources; the fields and their initial values (`unanalyzed`, no
edges) follow the spec's data model and the uses in `KnowledgeBase`.  The
JS `analyzed` field starts falsy and later holds the numeric level, so it is
a `JSNum` starting at `0`; `analyzing` holds the pending promise and is
modelled by its truthiness. -/
structure SymRec where
  rawName : Option String
  prettyName : Option String
  syntaxKind : Option String
  somePath : Option String
  headerPath : Option String
  sourcePath : Option String
  analyzed : JSNum
  analyzing : Bool
  outEdges : List Nat
  inEdges : List Nat
  sourceFileInfo : Option Nat
  declFileInfo : Option Nat
deriving DecidableEq, Repr

/-- The record built by `new SymbolInfo({rawName, prettyName, somePath,
headerPath, sourcePath, syntaxKind})` in `lookupRawSymbol`. -/
def SymRec.init (rawName prettyName : Option String) (opts : LookupOpts) :
    SymRec :=
  { rawName := rawName
    prettyName := prettyName
    syntaxKind := opts.syntaxKind
    somePath := opts.somePath
    headerPath := opts.headerPath
    sourcePath := opts.sourcePath
    analyzed := .int 0
    analyzing := false
    outEdges := []
    inEdges := []
    sourceFileInfo := none
    declFileInfo := none }

/-- A symbol id that was never allocated: the all-empty record. -/
def SymRec.empty : SymRec := SymRec.init none none {}

/-- One `FileInfo` record (path, analyzed flag, symbol sets), per
`ensureFileAnalysis` and the spec's data model. -/
structure FileRec where
  path : String
  analyzed : Bool
  fileSymbolDefs : List Nat
  fileSymbolDecls : List Nat
deriving DecidableEq, Repr

def FileRec.empty : FileRec :=
  { path := "", analyzed := false, fileSymbolDefs := [], fileSymbolDecls := [] }

/-- Association-list lookup, the model of JS `Map.prototype.get`. -/
def alistFind {κ ν : Type} [DecidableEq κ] (m : List (κ × ν)) (k : κ) :
    Option ν :=
  match m with
  | [] => none
  | (k', v) :: rest => if k' = k then some v else alistFind rest k

/-- Association-list update, the model of JS `Map.prototype.set`: replace in
place if the key is present, else append. -/
def alistSet {κ ν : Type} [DecidableEq κ] (m : List (κ × ν)) (k : κ) (v : ν) :
    List (κ × ν) :=
  match m with
  | [] => [(k, v)]
  | (k', v') :: rest =>
    if k' = k then (k, v) :: rest else (k', v') :: alistSet rest k v

/-- JS `Set.prototype.add`: append unless already present. -/
def setAdd (l : List Nat) (x : Nat) : List Nat :=
  if l.contains x then l else l ++ [x]

/-- Pointwise update of an id-indexed store. -/
def updFun {α : Type} (f : Nat → α) (i : Nat) (v : α) : Nat → α :=
  fun j => if j = i then v else f j

theorem alistFind_alistSet {κ ν : Type} [DecidableEq κ]
    (m : List (κ × ν)) (k k' : κ) (v : ν) :
    alistFind (alistSet m k v) k' =
      if k = k' then some v else alistFind m k' := by
  induction m with
  | nil => simp [alistFind, alistSet]
  | cons p rest ih =>
    obtain ⟨k₀, v₀⟩ := p
    by_cases h₀ : k₀ = k
    · subst h₀
      by_cases h₁ : k₀ = k'
      · subst h₁; simp [alistFind, alistSet]
      · simp [alistFind, alistSet, h₁]
    · by_cases h₁ : k₀ = k'
      · subst h₁
        simp [alistFind, alistSet, h₀, Ne.symm h₀]
      · simp [alistFind, alistSet, h₀, h₁, ih]

theorem mem_setAdd (l : List Nat) (x y : Nat) :
    y ∈ setAdd l x ↔ y ∈ l ∨ y = x := by
  unfold setAdd
  rcases hc : l.contains x with _ | _
  · simp [List.mem_append]
  · simp only [if_true]
    constructor
    · intro hy; exact Or.inl hy
    · rintro (hy | rfl)
      · exact hy
      · exact List.mem_of_elem_eq_true hc

/-- One element of a `consumes` array in a search result
(`{sym, pretty, syntax}`); `syn` models the JS `syntax` field. -/
structure ConsumedInfo where
  sym : String
  pretty : Option String
  syn : Option String
deriving DecidableEq, Repr

/-- One line record of a `uses` hit (`{contextsym, context}`). -/
structure LineResult where
  contextsym : Option String
  context : Option String
deriving DecidableEq, Repr

/-- A `PathLines` object (`{path, lines}`). -/
structure PathLines where
  path : String
  lines : List LineResult
deriving DecidableEq, Repr

/-- The optional `meta` object of a search result (`meta.syntax`). -/
structure MetaInfo where
  syn : Option String
deriving DecidableEq, Repr

/-- One value of the `raw.semantic` dictionary returned by the search
backend for a queried symbol.  `hits` is the nested dictionary
`{pathKind: {useType: [PathLines]}}`, modelled as entry lists in iteration
order; `Option` marks JS fields that may be absent (guarded by `if` in the
source). -/
structure RawSemInfo where
  symbolName : Option String
  meta : Option MetaInfo
  consumes : Option (List ConsumedInfo)
  hits : Option (List (String × List (String × List PathLines)))
deriving DecidableEq, Repr

/-- The opaque search collaborator: for a queried raw name, the entry list of
`rawResultsList[0].raw.semantic || {}` (the wrapper layers of
`performSearch` are external to this repository and the spec treats them as
an opaque RPC; the entry keys are unused by `_analyzeSymbol`). -/
structure SearchEnv where
  semantic : Option String → List RawSemInfo

/-- The mutable state of one `KnowledgeBase` instance, plus instrumentation
logs (`searchLog` records each `performSearch`, `esaLog` records each entry
into `ensureSymbolAnalysis` with the hop argument it received, the dirty
logs record `markDirty` calls). -/
structure KBState where
  symbolsByRawName : List (Option String × Nat)
  nextSymId : Nat
  syms : Nat → SymRec
  analyzingSymbols : List Nat
  filesByPath : List (String × Nat)
  nextFileId : Nat
  files : Nat → FileRec
  searchLog : List (Option String)
  esaLog : List (Nat × JSNum)
  dirtyLog : List Nat
  fileDirtyLog : List Nat

/-- A freshly constructed `KnowledgeBase`: empty maps and counters. -/
def initKB : KBState :=
  { symbolsByRawName := []
    nextSymId := 0
    syms := fun _ => SymRec.empty
    analyzingSymbols := []
    filesByPath := []
    nextFileId := 0
    files := fun _ => FileRec.empty
    searchLog := []
    esaLog := []
    dirtyLog := []
    fileDirtyLog := [] }

/-- The `EDGE_SANITY_LIMIT` constant set in the `KnowledgeBase`
constructor. -/
def EDGE_SANITY_LIMIT : Nat := 32

/-- Update one symbol record in place. -/
def updSym (st : KBState) (sid : Nat) (f : SymRec → SymRec) : KBState :=
  { st with syms := updFun st.syms sid (f (st.syms sid)) }

/-- Update one file record in place. -/
def updFile (st : KBState) (fid : Nat) (f : FileRec → FileRec) : KBState :=
  { st with files := updFun st.files fid (f (st.files fid)) }

/-- `symInfo.markDirty()` (instrumented as a log). -/
def pushDirty (st : KBState) (sid : Nat) : KBState :=
  { st with dirtyLog := st.dirtyLog ++ [sid] }

/-- `fileInfo.markDirty()` (instrumented as a log). -/
def pushFileDirty (st : KBState) (fid : Nat) : KBState :=
  { st with fileDirtyLog := st.fileDirtyLog ++ [fid] }

/-- Record one `performSearch` issued for a raw name. -/
def pushSearch (st : KBState) (raw : Option String) : KBState :=
  { st with searchLog := st.searchLog ++ [raw] }

/-- Record one entry into `ensureSymbolAnalysis` with its hop argument. -/
def pushEsaLog (st : KBState) (sid : Nat) (hops : JSNum) : KBState :=
  { st with esaLog := st.esaLog ++ [(sid, hops)] }

/-- Modelled from the spec: `SymbolInfo.updatePrettyNameFrom`
(`symbol_info.js` is not among the sources) back-fills the display name of a
symbol that was first referenced without one. -/
def updatePrettyNameFrom (st : KBState) (sid : Nat) (p : Option String) :
    KBState :=
  updSym st sid (fun q => { q with prettyName := p })

/-- Modelled from the spec: `SymbolInfo.updateSyntaxKindFrom`
(`symbol_info.js` is not among the sources) records syntax-kind metadata
from a search result. -/
def updateSyntaxKindFrom (st : KBState) (sid : Nat) (v : Option String) :
    KBState :=
  updSym st sid (fun q => { q with syntaxKind := v })

/-- The shared creation path of `ensureFileAnalysis`: construct a `FileInfo`,
cache it by path, mark it analyzed (the file analyzer is commented out in the
source, so `analyzing` is immediately `false` and `analyzed` `true`) and mark
it dirty. -/
def mkFile (st : KBState) (path : String) : Nat × KBState :=
  let fid := st.nextFileId
  let st :=
    { st with
      files := updFun st.files fid
        { path := path, analyzed := true
          fileSymbolDefs := [], fileSymbolDecls := [] }
      filesByPath := alistSet st.filesByPath path fid
      nextFileId := fid + 1 }
  (fid, pushFileDirty st fid)

/-- `ensureFileAnalysis(path)`: return the cached analyzed `FileInfo` for a
path or create one.  (The `fi && !analyzed && !analyzing` fall-through logs
`'uhhh...'` in the source and then also creates a replacement record; it is
unreachable because created files are immediately `analyzed`.) -/
def ensureFileAnalysis (st : KBState) (path : String) : Nat × KBState :=
  match alistFind st.filesByPath path with
  | some fid => if (st.files fid).analyzed then (fid, st) else mkFile st path
  | none => mkFile st path

/-- The `defs` branch of the hits loop in `_analyzeSymbol`: when there is
exactly one definition location and the symbol has no source file yet, bind
the symbol to its (analyzed) `FileInfo` and index it there. -/
def bindDefFile (st : KBState) (sid : Nat) (pathLinesArray : List PathLines) :
    KBState :=
  match pathLinesArray, (st.syms sid).sourceFileInfo with
  | [pl], none =>
    let fres := ensureFileAnalysis st pl.path
    let s1 := updSym fres.2 sid
      (fun q => { q with sourceFileInfo := some fres.1 })
    let s2 := updFile s1 fres.1
      (fun f => { f with fileSymbolDefs := setAdd f.fileSymbolDefs sid })
    pushFileDirty s2 fres.1
  | _, _ => st

/-- The `decls` branch of the hits loop, analogous to `bindDefFile`. -/
def bindDeclFile (st : KBState) (sid : Nat) (pathLinesArray : List PathLines) :
    KBState :=
  match pathLinesArray, (st.syms sid).declFileInfo with
  | [pl], none =>
    let fres := ensureFileAnalysis st pl.path
    let s1 := updSym fres.2 sid
      (fun q => { q with declFileInfo := some fres.1 })
    let s2 := updFile s1 fres.1
      (fun f => { f with fileSymbolDecls := setAdd f.fileSymbolDecls sid })
    pushFileDirty s2 fres.1
  | _, _ => st

/-- The control points of the `KnowledgeBase` interpreter: the public entry
points, and one constructor per loop of `_analyzeSymbol` /
`ensureSymbolAnalysis` (each JS `for` loop becomes list recursion). -/
inductive KBCall where
  | lookup (rawName : Option String) (doAnalyze : DoAnalyze)
      (prettyName : Option String) (opts : LookupOpts)
  | esa (sid : Nat) (hops : JSNum)
  | esaPropagate (others : List Nat) (hops : JSNum)
  | analyze (sid : Nat) (hops : JSNum)
  | semanticLoop (sid : Nat) (hops : JSNum) (entries : List RawSemInfo)
  | consumesLoop (sid : Nat) (hops : JSNum) (items : List ConsumedInfo)
  | hitsLoop (sid : Nat) (hops : JSNum)
      (groups : List (String × List (String × List PathLines)))
  | useGroupsLoop (sid : Nat) (hops : JSNum)
      (groups : List (String × List PathLines))
  | usesPathsLoop (sid : Nat) (hops : JSNum) (paths : List PathLines)
  | usesLinesLoop (sid : Nat) (hops : JSNum) (path : String)
      (lines : List LineResult)

/-- The fuel-indexed interpreter for the `KnowledgeBase` methods.  Each case
is the direct translation of the corresponding source code; every recursion
consumes fuel, and exhausted fuel aborts the whole run (`none`), so a
completed run (`some`) performs exactly the work the JS methods perform.
The first component of the result is the id returned by `lookupRawSymbol` /
the symbol resolved by `ensureSymbolAnalysis` (`0` for the loop helpers,
whose JS counterparts return nothing). -/
def kbRun (env : SearchEnv) : Nat → KBCall → KBState → Option (Nat × KBState)
  | 0, _, _ => none
  | fuel + 1, .lookup rawName doAnalyze prettyName opts, st =>
    -- rawName = normalizeSymbol(rawName)
    let key := normalizeSymbol rawName false
    match alistFind st.symbolsByRawName key with
    | some sid =>
      -- cached: optionally back-fill the pretty name, optionally analyze.
      let st1 :=
        if strTruthy prettyName && !strTruthy (st.syms sid).prettyName then
          updatePrettyNameFrom st sid prettyName
        else st
      if doAnalyze.truthy then
        -- `this.ensureSymbolAnalysis(symInfo)` — note: no hop argument.
        match kbRun env fuel (.esa sid .undef) st1 with
        | some r => some (sid, r.2)
        | none => none
      else some (sid, st1)
    | none =>
      let sid := st.nextSymId
      let st1 :=
        { st with
          syms := updFun st.syms sid (SymRec.init rawName prettyName opts)
          nextSymId := sid + 1
          symbolsByRawName := alistSet st.symbolsByRawName key sid }
      if doAnalyze.truthy then
        let hops :=
          if doAnalyze = .bool true then JSNum.int 1 else doAnalyze.toHops
        match kbRun env fuel (.esa sid hops) st1 with
        | some r => some (sid, r.2)
        | none => none
      else some (sid, st1)
  | fuel + 1, .esa sid analyzeHops, st =>
    let st := pushEsaLog st sid analyzeHops
    let clampedLevel := analyzeHops.minTwo
    if (st.syms sid).analyzed.truthy then
      if JSNum.lt (st.syms sid).analyzed clampedLevel then
        let st1 := updSym st sid (fun q => { q with analyzed := clampedLevel })
        let r2 :=
          if (st1.syms sid).outEdges.length < EDGE_SANITY_LIMIT then
            (kbRun env fuel
              (.esaPropagate (st1.syms sid).outEdges analyzeHops.subOne)
              st1).map Prod.snd
          else some st1
        match r2 with
        | none => none
        | some st2 =>
          let r3 :=
            if (st2.syms sid).inEdges.length < EDGE_SANITY_LIMIT then
              (kbRun env fuel
                (.esaPropagate (st2.syms sid).inEdges analyzeHops.subOne)
                st2).map Prod.snd
            else some st2
          match r3 with
          | none => none
          | some st3 => some (sid, st3)
      else some (sid, st)
    else if (st.syms sid).analyzing then some (sid, st)
    else
      -- symInfo.analyzing = this._analyzeSymbol(...); add to the in-flight
      -- set; await; then complete.
      let st1 :=
        { updSym st sid (fun q => { q with analyzing := true }) with
          analyzingSymbols := setAdd st.analyzingSymbols sid }
      match kbRun env fuel (.analyze sid analyzeHops) st1 with
      | none => none
      | some r =>
        let st3 := updSym r.2 sid
          (fun q => { q with analyzing := false, analyzed := clampedLevel })
        let st4 :=
          { st3 with
            analyzingSymbols :=
              st3.analyzingSymbols.filter (fun x => x ≠ sid) }
        some (sid, pushDirty st4 sid)
  | fuel + 1, .esaPropagate others hops, st =>
    -- the cascaded `this.ensureSymbolAnalysis(otherSym, analyzeHops - 1)`
    -- loops of the level-bump branch (iterating a snapshot of the edge set).
    match others with
    | [] => some (0, st)
    | o :: rest =>
      match kbRun env fuel (.esa o hops) st with
      | none => none
      | some r => kbRun env fuel (.esaPropagate rest hops) r.2
  | fuel + 1, .analyze sid analyzeHops, st =>
    -- _analyzeSymbol: one search, then process the semantic entries.
    let raw := (st.syms sid).rawName
    kbRun env fuel (.semanticLoop sid analyzeHops (env.semantic raw))
      (pushSearch st raw)
  | fuel + 1, .semanticLoop sid hops entries, st =>
    match entries with
    | [] => some (0, st)
    | entry :: rest =>
      let r1 :=
        if entry.symbolName ≠ (st.syms sid).rawName then
          some st  -- console.warn('ignoring search result for', ...); continue
        else
          let sa :=
            match entry.meta with
            | some m => updateSyntaxKindFrom st sid m.syn
            | none => st
          let rb :=
            match entry.consumes with
            | some items =>
              (kbRun env fuel (.consumesLoop sid hops items) sa).map Prod.snd
            | none => some sa
          match rb with
          | none => none
          | some sb =>
            match entry.hits with
            | some groups =>
              (kbRun env fuel (.hitsLoop sid hops groups) sb).map Prod.snd
            | none => some sb
      match r1 with
      | none => none
      | some st1 => kbRun env fuel (.semanticLoop sid hops rest) st1
  | fuel + 1, .consumesLoop sid hops items, st =>
    match items with
    | [] => some (0, st)
    | c :: rest =>
      match kbRun env fuel
          (.lookup (normalizeSymbol (some c.sym) false) (.num hops.subOne)
            c.pretty { syntaxKind := c.syn })
          st with
      | none => none
      | some res =>
        let consumedSid := res.1
        let s1 := updSym res.2 sid
          (fun q => { q with outEdges := setAdd q.outEdges consumedSid })
        let s2 := pushDirty s1 sid
        let s3 := updSym s2 consumedSid
          (fun q => { q with inEdges := setAdd q.inEdges sid })
        let s4 := pushDirty s3 consumedSid
        kbRun env fuel (.consumesLoop sid hops rest) s4
  | fuel + 1, .hitsLoop sid hops groups, st =>
    match groups with
    | [] => some (0, st)
    | (_pathKind, useGroups) :: rest =>
      match kbRun env fuel (.useGroupsLoop sid hops useGroups) st with
      | none => none
      | some r => kbRun env fuel (.hitsLoop sid hops rest) r.2
  | fuel + 1, .useGroupsLoop sid hops groups, st =>
    match groups with
    | [] => some (0, st)
    | (useType, pathLinesArray) :: rest =>
      if useType = "defs" then
        kbRun env fuel (.useGroupsLoop sid hops rest)
          (bindDefFile st sid pathLinesArray)
      else if useType = "decls" then
        kbRun env fuel (.useGroupsLoop sid hops rest)
          (bindDeclFile st sid pathLinesArray)
      else if useType = "uses" then
        match kbRun env fuel (.usesPathsLoop sid hops pathLinesArray) st with
        | none => none
        | some r1 => kbRun env fuel (.useGroupsLoop sid hops rest) r1.2
      else kbRun env fuel (.useGroupsLoop sid hops rest) st
  | fuel + 1, .usesPathsLoop sid hops paths, st =>
    match paths with
    | [] => some (0, st)
    | pl :: rest =>
      match kbRun env fuel (.usesLinesLoop sid hops pl.path pl.lines) st with
      | none => none
      | some r => kbRun env fuel (.usesPathsLoop sid hops rest) r.2
  | fuel + 1, .usesLinesLoop sid hops path lines, st =>
    match lines with
    | [] => some (0, st)
    | lr :: rest =>
      let r1 :=
        if strTruthy lr.contextsym then
          match kbRun env fuel
              (.lookup (normalizeSymbol lr.contextsym true) (.num hops.subOne)
                lr.context
                { somePath := some path, syntaxKind := some "function" })
              st with
          | none => none
          | some res =>
            let ctxSid := res.1
            let s1 := updSym res.2 sid
              (fun q => { q with inEdges := setAdd q.inEdges ctxSid })
            let s2 := pushDirty s1 sid
            let s3 := updSym s2 ctxSid
              (fun q => { q with outEdges := setAdd q.outEdges sid })
            some (pushDirty s3 ctxSid)
        else some st
      match r1 with
      | none => none
      | some st1 => kbRun env fuel (.usesLinesLoop sid hops path rest) st1

/-- The public operations a caller of the `KnowledgeBase` can issue (the UI
holds `SymbolInfo` references obtained from `lookupRawSymbol`, so a direct
`ensureSymbolAnalysis` call addresses a cached symbol by its raw name). -/
inductive KBOp where
  | lookup (rawName : Option String) (doAnalyze : DoAnalyze)
      (prettyName : Option String) (opts : LookupOpts)
  | analyzeSym (rawName : Option String) (hops : JSNum)

/-- Run a sequence of public operations, each with its own fuel: the single
cooperative control flow of the spec's concurrency model.  A direct
`ensureSymbolAnalysis` on a never-looked-up name has no symbol to address
and is skipped. -/
def runOps (env : SearchEnv) : List (Nat × KBOp) → KBState → Option KBState
  | [], st => some st
  | (fuel, .lookup rawName doAnalyze prettyName opts) :: rest, st =>
    match kbRun env fuel (.lookup rawName doAnalyze prettyName opts) st with
    | none => none
    | some r => runOps env rest r.2
  | (fuel, .analyzeSym rawName hops) :: rest, st =>
    match alistFind st.symbolsByRawName (normalizeSymbol rawName false) with
    | some sid =>
      match kbRun env fuel (.esa sid hops) st with
      | none => none
      | some r => runOps env rest r.2
    | none => runOps env rest st

/-! ## TransitiveCallDoodler (`transitive_calls_doodler.js`)

The doodler walks symbols (numeric ids) through a worklist.  `SymbolInfo`'s
`callsOutTo` / `receivesCallsFrom` / `isSameDirectoryAs` /
`isHackGeneratedIPC` members live in `symbol_info.js`, which is not among
the sources; they are modelled from the spec as an abstract edge relation
(already selected by the `callsOut` flag, which still picks the direction of
the drawn edges) and abstract directory / generated-IPC predicates.
`ensureSymbolAnalysis` and `ensureCallEdges` populate that relation as a
side effect; the model takes the populated relation as given, which is the
only part of their behaviour the traversal reads. -/

/-- The inputs of one `doodleCalls` run. -/
structure DoodleGraph where
  /-- `curSym[callsPropName]`, iteration order of the JS `Set`. -/
  callsOf : Nat → List Nat
  /-- `rootSym.isSameDirectoryAs(otherSym)` (modelled from the spec). -/
  sameDir : Nat → Nat → Bool
  /-- `otherSym.isHackGeneratedIPC()` (modelled from the spec). -/
  isIPC : Nat → Bool
  callsOut : Bool
  limitToModule : Bool
  root : Nat

/-- Observable actions of the doodler: worklist insertions
(`toTraverse.push`), `diagram.ensureEdge` and `diagram.styleNode` calls. -/
inductive DoodleEvent where
  | enqueue (s : Nat)
  | edge (a b : Nat)
  | style (s : Nat)
deriving DecidableEq, Repr

/-- `MAX_CALL_BRANCHING` from `transitive_calls_doodler.js`. -/
def MAX_CALL_BRANCHING : Nat := 12

/-- The in-scope calls kept by the `limitToModule` filter. -/
def inModuleCalls (g : DoodleGraph) (cur : Nat) : List Nat :=
  if g.limitToModule then
    (g.callsOf cur).filter (fun o => g.sameDir g.root o)
  else g.callsOf cur

/-- The `leafCalls` accumulated by the filter: out-of-module targets that are
recognized as generated IPC (drawn but not traversed). -/
def leafIPCCalls (g : DoodleGraph) (cur : Nat) : List Nat :=
  if g.limitToModule then
    (g.callsOf cur).filter (fun o => !g.sameDir g.root o && g.isIPC o)
  else []

/-- `diagram.ensureEdge(curSym, nextSym)` or the flipped call, per
`callsOut`. -/
def edgeEvent (g : DoodleGraph) (a b : Nat) : DoodleEvent :=
  if g.callsOut then .edge a b else .edge b a

/-- The `for (const nextSym of calls)` loop body: draw each edge, then
enqueue the target unless it was already considered. -/
def traverseCalls (g : DoodleGraph) (cur : Nat) :
    List Nat → List Nat → List Nat → List DoodleEvent →
    List Nat × List Nat × List DoodleEvent
  | [], queue, considered, events => (queue, considered, events)
  | next :: rest, queue, considered, events =>
    let events := events ++ [edgeEvent g cur next]
    if considered.contains next then
      traverseCalls g cur rest queue considered events
    else
      traverseCalls g cur rest (queue ++ [next]) (considered ++ [next])
        (events ++ [DoodleEvent.enqueue next])

/-- The `while (toTraverse.length)` loop of `doodleCalls`.  Fuel exhaustion
returns `none`; the termination theorem shows `|universe| + 2` fuel always
suffices.  A branching overload styles the symbol and abandons it
(`overloadBailed` membership is observable as the `style` event). -/
def doodleLoop (g : DoodleGraph) :
    Nat → List Nat → List Nat → List DoodleEvent → Option (List DoodleEvent)
  | 0, _, _, _ => none
  | _fuel + 1, [], _, events => some events
  | fuel + 1, cur :: rest, considered, events =>
    let calls := inModuleCalls g cur
    let leafs := leafIPCCalls g cur
    if MAX_CALL_BRANCHING < calls.length then
      doodleLoop g fuel rest considered (events ++ [DoodleEvent.style cur])
    else
      let r := traverseCalls g cur calls rest considered events
      doodleLoop g fuel r.1 r.2.1 (r.2.2 ++ leafs.map (edgeEvent g cur))

/-- `TransitiveCallDoodler.doodleCalls`: the initial worklist holds the root
symbol (without entering it into `considered`), then the loop runs.  The
initial pre-analysis of the root has no observable diagram effect. -/
def doodleCalls (g : DoodleGraph) (fuel : Nat) : Option (List DoodleEvent) :=
  doodleLoop g fuel [g.root] [] [DoodleEvent.enqueue g.root]

/-- Number of times a symbol was inserted into the traversal worklist. -/
def countEnqueues (events : List DoodleEvent) (s : Nat) : Nat :=
  (events.filter (fun e => decide (e = DoodleEvent.enqueue s))).length

/-! ## HierNodeGenerator deferred call-edge pass (`hiernode_generator.js`)

`_processDeferredBlock` resolves `edge_call` / `edge_instance_call` blocks
after the tree exists.  HierNodes are numeric ids; the Blockly `varMap` is
external, so blocks carry the referenced variable names directly.
`HierNode.findCommonAncestor` lives in `core_diagram.js`, which is not among
the sources, and is modelled from the spec. -/

/-- An `InstanceGroupInfo`: group name, styling, and the per-group
symbol-to-node map. -/
structure IGroupInfo where
  groupName : String
  fillColor : Option String
  symToNode : List (Nat × Nat)
deriving DecidableEq, Repr

/-- The generator state read by the third (deferred-edge) pass, plus the
edge list and warning log it writes.  `idToSym` stores `Option` values
because Phase 0 `set`s the first found symbol even when the lookup failed
(JS `undefined`); `nodeInstanceGroup` gives each node's (inherited or
explicit) instance-group name, `nodeParent` the tree structure. -/
structure GenState where
  idToSym : List (String × Option Nat)
  instanceGroupsByName : List (String × IGroupInfo)
  symToNode : List (Nat × Nat)
  nodeParent : Nat → Option Nat
  nodeInstanceGroup : Nat → Option String
  edges : List (Nat × Nat × Option Nat)
  warnLog : List String

/-- `this.idToSym.get(name)`: a missing key and a stored `undefined` are
both JS `undefined`. -/
def idSymGet (m : List (String × Option Nat)) (k : String) : Option Nat :=
  match m with
  | [] => none
  | (k', v) :: rest => if k' = k then v else idSymGet rest k

/-- Ancestor chain of a node (self first), walked through the parent
pointers with fuel bounding the walk. -/
def chainUp (parent : Nat → Option Nat) : Nat → Nat → List Nat
  | 0, n => [n]
  | fuel + 1, n =>
    n :: (match parent n with
          | none => []
          | some p => chainUp parent fuel p)

/-- Modelled from the spec: `HierNode.findCommonAncestor` (`core_diagram.js`
is not among the sources) walks the ancestor chains to find the lowest node
that dominates both endpoints, and returns null when the nodes belong to
disjoint trees; a missing endpoint (JS `undefined`) dominates nothing, so
the result is null and the caller treats it as "cannot draw edge". -/
def findCommonAncestor (parent : Nat → Option Nat) (fuel : Nat) :
    Option Nat → Option Nat → Option Nat
  | some a, some b =>
    (chainUp parent fuel a).find? (fun n => (chainUp parent fuel b).contains n)
  | _, _ => none

/-- The symbol-to-node resolution step of `edgeCommon`, extracted verbatim:
the explicit instance group's map when an explicit group was given, else the
parent's inherited group's map, with the global map consulted only when
there is no explicit group and nothing was found. -/
def resolveCallTarget (st : GenState) (parentNode : Nat)
    (explicitInstanceGroup : Option IGroupInfo) (callSym : Nat) : Option Nat :=
  let otherNode0 : Option Nat :=
    match explicitInstanceGroup with
    | some ig => alistFind ig.symToNode callSym
    | none =>
      match st.nodeInstanceGroup parentNode with
      | some pgName =>
        match alistFind st.instanceGroupsByName pgName with
        | some pg => alistFind pg.symToNode callSym
        | none => none
      | none => none
  if explicitInstanceGroup.isNone && otherNode0.isNone then
    alistFind st.symToNode callSym
  else otherNode0

/-- The resolution rule exactly as the specification words it ("looked up
first within the edge's explicit/inherited instance group's local
symbol-to-node map, falling back to the global (non-instanced)
symbol-to-node map"), for comparison with `resolveCallTarget`. -/
def resolveCallTargetSpec (st : GenState) (parentNode : Nat)
    (explicitInstanceGroup : Option IGroupInfo) (callSym : Nat) : Option Nat :=
  let group : Option IGroupInfo :=
    match explicitInstanceGroup with
    | some ig => some ig
    | none =>
      match st.nodeInstanceGroup parentNode with
      | some pgName => alistFind st.instanceGroupsByName pgName
      | none => none
  match group with
  | some g =>
    match alistFind g.symToNode callSym with
    | some n => some n
    | none => alistFind st.symToNode callSym
  | none => alistFind st.symToNode callSym

/-- The `edgeCommon` closure of `_processDeferredBlock`: resolve the call
target variable to a symbol, resolve that symbol to a node (explicit
instance group first; else the parent's inherited group; a global-map
fallback only when there is no explicit group), then push the call edge onto
the lowest common ancestor, dropping it (with a warning) when anything is
unresolvable. -/
def edgeCommon (fcaFuel : Nat) (st : GenState) (parentNode : Nat)
    (explicitInstanceGroup : Option IGroupInfo) (callName : String) :
    GenState :=
  match idSymGet st.idToSym callName with
  | none => { st with warnLog := st.warnLog ++ ["failed to resolve call id"] }
  | some callSym =>
    let otherNode :=
      resolveCallTarget st parentNode explicitInstanceGroup callSym
    let st1 :=
      if otherNode.isNone then
        { st with warnLog := st.warnLog ++ ["unable to find call target"] }
      else st
    match findCommonAncestor st1.nodeParent fcaFuel (some parentNode)
        otherNode with
    | some anc =>
      { st1 with edges := st1.edges ++ [(anc, parentNode, otherNode)] }
    | none =>
      { st1 with
        warnLog := st1.warnLog ++ ["skipping edge due to lack of ancestor"] }

/-- A deferred block collected during Phase 2: a call-edge block carrying
the names of the variables its fields reference. -/
inductive DeferredBlock where
  | edgeCall (callsWhat : String)
  | edgeInstanceCall (instName : String) (callsWhat : String)
deriving DecidableEq, Repr

/-- `_processDeferredBlock(rootNode, block, parentNode)`: dispatch on the
block type, resolving the explicit instance group for
`edge_instance_call` (possibly to JS `undefined`) before `edgeCommon`.
(`rootNode` is unused by the source body.) -/
def processDeferredBlock (fcaFuel : Nat) (st : GenState)
    (block : DeferredBlock) (parentNode : Nat) : GenState :=
  match block with
  | .edgeInstanceCall instName callsWhat =>
    edgeCommon fcaFuel st parentNode (alistFind st.instanceGroupsByName instName)
      callsWhat
  | .edgeCall callsWhat =>
    edgeCommon fcaFuel st parentNode none callsWhat

/-! ## Concrete example inputs used by witnesses and counterexamples -/

/-- A search backend with no results for any query. -/
def envEmpty : SearchEnv := ⟨fun _ => []⟩

/-- A knowledge-base state whose symbol `0` is cached for raw name `"A"`,
analyzed at level 1 and with exactly `EDGE_SANITY_LIMIT` (32) out-edges
`1..32` (the boundary of the propagation sanity check). -/
def stEdge32 : KBState :=
  { initKB with
    symbolsByRawName := [(some "A", 0)]
    nextSymId := 33
    syms := updFun (fun _ => SymRec.empty) 0
      { SymRec.init (some "A") none {} with
        analyzed := .int 1
        outEdges := (List.range 32).map (· + 1) } }

/-- A call graph whose root calls only itself: the smallest cyclic input for
`doodleCalls`. -/
def gSelfLoop : DoodleGraph :=
  { callsOf := fun s => if s = 0 then [0] else []
    sameDir := fun _ _ => true
    isIPC := fun _ => false
    callsOut := true
    limitToModule := false
    root := 0 }

/-- A call graph whose root has 13 in-scope callees (one more than
`MAX_CALL_BRANCHING`) under `limitToModule` traversal. -/
def gBranch13 : DoodleGraph :=
  { callsOf := fun s => if s = 0 then (List.range 13).map (· + 1) else []
    sameDir := fun _ _ => true
    isIPC := fun _ => false
    callsOut := true
    limitToModule := true
    root := 0 }

/-- A small two-hop module call graph with one already-considered edge and
one generated-IPC leaf, exercising the edge-reflection paths. -/
def gSmall : DoodleGraph :=
  { callsOf := fun s => if s = 0 then [1, 2] else if s = 1 then [0, 9] else []
    sameDir := fun _ o => o ≤ 2
    isIPC := fun o => o = 9
    callsOut := true
    limitToModule := true
    root := 0 }

/-- A generator state where identifier `"T"` resolved to symbol `7`, the
instance group `"G"` has an empty symbol-to-node map, and the global map
binds symbol `7` to node `5`; nodes `1` and `5` are siblings under root
`3`. -/
def genStG : GenState :=
  { idToSym := [("T", some 7), ("U", none)]
    instanceGroupsByName := [("G", ⟨"G", none, []⟩)]
    symToNode := [(7, 5)]
    nodeParent := fun n => if n = 1 ∨ n = 5 then some 3 else none
    nodeInstanceGroup := fun _ => none
    edges := []
    warnLog := [] }

/-- A knowledge-base state with raw name `"A"` cached as symbol `0`, not yet
analyzed. -/
def stAUn : KBState :=
  { initKB with
    symbolsByRawName := [(some "A", 0)]
    nextSymId := 1
    syms := updFun (fun _ => SymRec.empty) 0 (SymRec.init (some "A") none {}) }

/-- A search backend where symbol `"A"` consumes one symbol `"B"`. -/
def envC : SearchEnv :=
  ⟨fun q =>
    if q = some "A" then
      [{ symbolName := some "A", meta := none,
         consumes := some [⟨"B", none, none⟩], hits := none }]
    else []⟩

/-- Extract the result of a completed `kbRun`, defaulting to a dummy. -/
def kbGet (env : SearchEnv) (fuel : Nat) (c : KBCall) (st : KBState) :
    Nat × KBState :=
  (kbRun env fuel c st).getD (0, initKB)

/-- Extract the result of a completed `runOps`, defaulting to a dummy. -/
def opsGet (env : SearchEnv) (ops : List (Nat × KBOp)) (st : KBState) :
    KBState :=
  (runOps env ops st).getD initKB

/-- Result of looking up `"A"` without analysis in the empty knowledge base. -/
def c1r1 : Nat × KBState :=
  kbGet envEmpty 5 (.lookup (some "A") .undef none {}) initKB

/-- State after a further unrelated lookup of `"Z"`. -/
def c1st2 : KBState :=
  opsGet envEmpty [(5, .lookup (some "Z") .undef none {})] c1r1.2

/-- Result of then looking up the comma-delimited raw name `"A,B"`. -/
def c1r2 : Nat × KBState :=
  kbGet envEmpty 5 (.lookup (some "A,B") (.bool true) none {}) c1st2

/-- Result of looking up `"A"` without analysis (for the C2 witness). -/
def c2ra : Nat × KBState :=
  kbGet envEmpty 5 (.lookup (some "A") .undef none {}) initKB

/-- Result of a cached lookup of `"A"` with `doAnalyze = true`. -/
def c2rb : Nat × KBState :=
  kbGet envEmpty 5 (.lookup (some "A") (.bool true) none {}) c2ra.2

/-- Result of a fresh lookup of `"B"` with `doAnalyze = true`. -/
def c2rc : Nat × KBState :=
  kbGet envEmpty 5 (.lookup (some "B") (.bool true) none {}) initKB

/-- State reached by looking up and fully analyzing `"A"` against the
backend `envC` (for the C4 witness). -/
def c4st : KBState :=
  opsGet envC [(9, .lookup (some "A") (.bool true) none {})] initKB

/-- Result of re-analysis of the cached symbol `0` of `stAUn` with a hop
budget of 10 (for the C5 witness). -/
def c5r : Nat × KBState := kbGet envEmpty 9 (.esa 0 (.int 10)) stAUn

/-- Like `stEdge32` but with only two outgoing edges, below the sanity
limit. -/
def stEdge2 : KBState :=
  { initKB with
    symbolsByRawName := [(some "A", 0)]
    nextSymId := 3
    syms := updFun (fun _ => SymRec.empty) 0
      { SymRec.init (some "A") none {} with
        analyzed := .int 1
        outEdges := [1, 2] } }

/-- A state whose symbol `0` has an out-edge list at the sanity limit and a
single in-edge. -/
def stIn32 : KBState :=
  { initKB with
    symbolsByRawName := [(some "A", 0)]
    nextSymId := 34
    syms := updFun (fun _ => SymRec.empty) 0
      { SymRec.init (some "A") none {} with
        analyzed := .int 1
        outEdges := (List.range 32).map (· + 2)
        inEdges := [1] } }

/-- A state whose symbol `0` has both edge lists at the sanity limit. -/
def stBoth32 : KBState :=
  { initKB with
    symbolsByRawName := [(some "A", 0)]
    nextSymId := 65
    syms := updFun (fun _ => SymRec.empty) 0
      { SymRec.init (some "A") none {} with
        analyzed := .int 1
        outEdges := (List.range 32).map (· + 1)
        inEdges := (List.range 32).map (· + 33) } }

/-- Result of `ensureSymbolAnalysis` with budget 2 on `stEdge2`. -/
def c6wa : Nat × KBState := kbGet envEmpty 20 (.esa 0 (.int 2)) stEdge2

/-- Result of `ensureSymbolAnalysis` with budget 2 on `stIn32`. -/
def c6wb : Nat × KBState := kbGet envEmpty 20 (.esa 0 (.int 2)) stIn32

/-- Result of `ensureSymbolAnalysis` with budget 2 on `stBoth32`. -/
def c6wc : Nat × KBState := kbGet envEmpty 1 (.esa 0 (.int 2)) stBoth32

/-- Result of `ensureSymbolAnalysis` with budget 2 on `stEdge32`. -/
def c6r : Nat × KBState := kbGet envEmpty 40 (.esa 0 (.int 2)) stEdge32

/-- Whether a doodle event is an `ensureEdge` call. -/
def isEdge : DoodleEvent → Bool
  | .edge _ _ => true
  | _ => false

/-- The full event trace of the `gSmall` doodle (for the C7 witness). -/
def c7evs : List DoodleEvent := (doodleCalls gSmall 9).getD []

/-- The event trace of the `gBranch13` doodle (for the C8 witness). -/
def c8bEvs : List DoodleEvent := (doodleCalls gBranch13 5).getD []

/-- The full event trace of the `gSmall` doodle (for the C8 witness). -/
def c8sEvs : List DoodleEvent := (doodleCalls gSmall 9).getD []

/-- The full event trace of the `gSmall` doodle (for the C9 witness). -/
def c9evs : List DoodleEvent := (doodleCalls gSmall 9).getD []

/-! ## Basic facts about the interpreter -/

/-- Monotone facts relating a state to any later state of the same run: the
id counter only grows, raw-name bindings are never removed or rebound, and
the `ensureSymbolAnalysis` log only gains a suffix. -/
def KBLe (st st' : KBState) : Prop :=
  st.nextSymId ≤ st'.nextSymId ∧
  (∀ k i, alistFind st.symbolsByRawName k = some i →
      alistFind st'.symbolsByRawName k = some i) ∧
  ∃ t, st'.esaLog = st.esaLog ++ t

theorem KBLe.rfl (st : KBState) : KBLe st st :=
  ⟨le_refl _, fun _ _ h => h, [], (List.append_nil _).symm⟩

theorem KBLe.trans {s1 s2 s3 : KBState} (h1 : KBLe s1 s2) (h2 : KBLe s2 s3) :
    KBLe s1 s3 := by
  obtain ⟨a1, b1, t1, e1⟩ := h1
  obtain ⟨a2, b2, t2, e2⟩ := h2
  exact ⟨le_trans a1 a2, fun k i h => b2 k i (b1 k i h),
    t1 ++ t2, by rw [e2, e1, List.append_assoc]⟩

theorem KBLe_of_eqFields {st st' : KBState}
    (h1 : st'.nextSymId = st.nextSymId)
    (h2 : st'.symbolsByRawName = st.symbolsByRawName)
    (h3 : st'.esaLog = st.esaLog) : KBLe st st' :=
  ⟨le_of_eq h1.symm, fun k i h => by rw [h2]; exact h,
    [], by rw [h3, List.append_nil]⟩

theorem KBLe_updSym (st : KBState) (sid : Nat) (f : SymRec → SymRec) :
    KBLe st (updSym st sid f) := KBLe_of_eqFields rfl rfl rfl

theorem KBLe_pushDirty (st : KBState) (s : Nat) : KBLe st (pushDirty st s) :=
  KBLe_of_eqFields rfl rfl rfl

theorem KBLe_pushEsaLog (st : KBState) (s : Nat) (h : JSNum) :
    KBLe st (pushEsaLog st s h) :=
  ⟨le_refl _, fun _ _ hh => hh, [(s, h)], rfl⟩

theorem KBLe_ensureFileAnalysis (st : KBState) (path : String) :
    KBLe st (ensureFileAnalysis st path).2 := by
  unfold ensureFileAnalysis mkFile
  rcases alistFind st.filesByPath path with _ | fid
  · exact KBLe_of_eqFields rfl rfl rfl
  · by_cases h : (st.files fid).analyzed
    · simp only [h, if_true]
      exact KBLe.rfl st
    · simp only [h, if_false]
      exact KBLe_of_eqFields rfl rfl rfl

/-- Creating a symbol under an unbound key preserves the bindings of every
bound key. -/
theorem KBLe_create (st : KBState) (key : Option String)
    (hkey : alistFind st.symbolsByRawName key = none)
    (rec : SymRec) :
    KBLe st
      { st with
        syms := updFun st.syms st.nextSymId rec
        nextSymId := st.nextSymId + 1
        symbolsByRawName := alistSet st.symbolsByRawName key st.nextSymId } := by
  refine ⟨Nat.le_succ _, fun k i h => ?_, [], by simp⟩
  have hk : ¬(key = k) := fun he => by rw [he, h] at hkey; cases hkey
  simpa [alistFind_alistSet, hk] using h

theorem KBLe_bindDefFile (st : KBState) (sid : Nat)
    (pathLinesArray : List PathLines) :
    KBLe st (bindDefFile st sid pathLinesArray) := by
  unfold bindDefFile
  split
  · rename_i pl hsf
    refine KBLe.trans (KBLe_ensureFileAnalysis st pl.path) ?_
    refine KBLe.trans (KBLe_updSym (ensureFileAnalysis st pl.path).2 sid
      (fun q =>
        { q with sourceFileInfo := some (ensureFileAnalysis st pl.path).1 })) ?_
    exact KBLe_of_eqFields rfl rfl rfl
  · exact KBLe.rfl _

theorem KBLe_bindDeclFile (st : KBState) (sid : Nat)
    (pathLinesArray : List PathLines) :
    KBLe st (bindDeclFile st sid pathLinesArray) := by
  unfold bindDeclFile
  split
  · rename_i pl hsf
    refine KBLe.trans (KBLe_ensureFileAnalysis st pl.path) ?_
    refine KBLe.trans (KBLe_updSym (ensureFileAnalysis st pl.path).2 sid
      (fun q =>
        { q with declFileInfo := some (ensureFileAnalysis st pl.path).1 })) ?_
    exact KBLe_of_eqFields rfl rfl rfl
  · exact KBLe.rfl _

theorem KBLe_pushSearch (st : KBState) (raw : Option String) :
    KBLe st (pushSearch st raw) := KBLe_of_eqFields rfl rfl rfl

theorem kbRun_le (env : SearchEnv) :
    ∀ fuel c st r, kbRun env fuel c st = some r → KBLe st r.2 := by
  intro fuel
  induction fuel with
  | zero => intro c st r h; cases h
  | succ fuel ih =>
    intro c st r h
    cases c with
    | lookup rawName doAnalyze prettyName opts =>
      rw [kbRun] at h
      split at h
      · rename_i sid hf
        simp only [] at h
        set stP :=
          (if (strTruthy prettyName && !strTruthy (st.syms sid).prettyName)
              = true then
            updatePrettyNameFrom st sid prettyName
          else st) with hstP
        have hle1 : KBLe st stP := by
          rw [hstP]; split
          · exact KBLe_updSym _ _ _
          · exact KBLe.rfl _
        split at h
        · split at h
          · rename_i r1 hr
            cases h
            exact hle1.trans (ih _ _ r1 hr)
          · exact Option.noConfusion h
        · cases h; exact hle1
      · rename_i hf
        simp only [] at h
        have hle1 : KBLe st
            { st with
              syms := updFun st.syms st.nextSymId
                (SymRec.init rawName prettyName opts)
              nextSymId := st.nextSymId + 1
              symbolsByRawName := alistSet st.symbolsByRawName
                (normalizeSymbol rawName false) st.nextSymId } :=
          KBLe_create st _ hf _
        split at h
        · split at h
          · rename_i r1 hr
            cases h
            exact hle1.trans (ih _ _ r1 hr)
          · exact Option.noConfusion h
        · cases h; exact hle1
    | esa sid hops =>
      rw [kbRun] at h
      simp only [] at h
      have hle0 : KBLe st (pushEsaLog st sid hops) := KBLe_pushEsaLog _ _ _
      split at h
      · split at h
        · split at h
          · exact Option.noConfusion h
          · rename_i st2 hr2
            split at h
            · exact Option.noConfusion h
            · rename_i st3 hr3
              cases h
              have le1 : KBLe (pushEsaLog st sid hops)
                  (updSym (pushEsaLog st sid hops) sid
                    (fun q => { q with analyzed := hops.minTwo })) :=
                KBLe_updSym _ _ _
              have le2 : KBLe (updSym (pushEsaLog st sid hops) sid
                  (fun q => { q with analyzed := hops.minTwo })) st2 := by
                revert hr2; split
                · intro hr2
                  rw [Option.map_eq_some'] at hr2
                  obtain ⟨q, hq, hsnd⟩ := hr2
                  rw [← hsnd]; exact ih _ _ q hq
                · intro hr2; cases hr2; exact KBLe.rfl _
              have le3 : KBLe st2 st3 := by
                revert hr3; split
                · intro hr3
                  rw [Option.map_eq_some'] at hr3
                  obtain ⟨q, hq, hsnd⟩ := hr3
                  rw [← hsnd]; exact ih _ _ q hq
                · intro hr3; cases hr3; exact KBLe.rfl _
              exact ((hle0.trans le1).trans le2).trans le3
        · cases h; exact hle0
      · split at h
        · cases h; exact hle0
        · split at h
          · exact Option.noConfusion h
          · rename_i r1 hr
            cases h
            refine (hle0.trans (KBLe_of_eqFields rfl rfl rfl)).trans
              ((ih _ _ r1 hr).trans ?_)
            exact KBLe_of_eqFields rfl rfl rfl
    | esaPropagate others hops =>
      cases others with
      | nil => rw [kbRun] at h; cases h; exact KBLe.rfl _
      | cons o rest =>
        rw [kbRun] at h
        split at h
        · exact Option.noConfusion h
        · rename_i r1 hr
          exact (ih _ _ r1 hr).trans (ih _ _ r h)
    | analyze sid hops =>
      rw [kbRun] at h
      exact (KBLe_pushSearch st ((st.syms sid).rawName)).trans (ih _ _ r h)
    | semanticLoop sid hops entries =>
      cases entries with
      | nil => rw [kbRun] at h; cases h; exact KBLe.rfl _
      | cons entry rest =>
        rw [kbRun] at h
        simp only [] at h
        split at h
        · exact Option.noConfusion h
        · rename_i st1 hr1
          refine KBLe.trans ?_ (ih _ _ r h)
          revert hr1; split
          · intro hr1; cases hr1; exact KBLe.rfl _
          · have leSa : KBLe st
                (match entry.meta with
                 | some m => updateSyntaxKindFrom st sid m.syn
                 | none => st) := by
              cases entry.meta
              · exact KBLe.rfl _
              · exact KBLe_updSym _ _ _
            split
            · exact fun hr1 => Option.noConfusion hr1
            · rename_i sb hrb
              have leSb : KBLe st sb := by
                refine leSa.trans ?_
                revert hrb; split
                · intro hrb
                  rw [Option.map_eq_some'] at hrb
                  obtain ⟨q, hq, hsnd⟩ := hrb
                  rw [← hsnd]; exact ih _ _ q hq
                · intro hrb; cases hrb; exact KBLe.rfl _
              split
              · intro hr1
                rw [Option.map_eq_some'] at hr1
                obtain ⟨q, hq, hsnd⟩ := hr1
                rw [← hsnd]; exact leSb.trans (ih _ _ q hq)
              · intro hr1; cases hr1; exact leSb
    | consumesLoop sid hops items =>
      cases items with
      | nil => rw [kbRun] at h; cases h; exact KBLe.rfl _
      | cons c rest =>
        rw [kbRun] at h
        simp only [] at h
        split at h
        · exact Option.noConfusion h
        · rename_i res hr
          refine ((ih _ _ res hr).trans ?_).trans (ih _ _ r h)
          exact ((KBLe_updSym _ _ _).trans (KBLe_pushDirty _ _)).trans
            ((KBLe_updSym _ _ _).trans (KBLe_pushDirty _ _))
    | hitsLoop sid hops groups =>
      cases groups with
      | nil => rw [kbRun] at h; cases h; exact KBLe.rfl _
      | cons g rest =>
        obtain ⟨pathKind, useGroups⟩ := g
        rw [kbRun] at h
        split at h
        · exact Option.noConfusion h
        · rename_i r1 hr
          exact (ih _ _ r1 hr).trans (ih _ _ r h)
    | useGroupsLoop sid hops groups =>
      cases groups with
      | nil => rw [kbRun] at h; cases h; exact KBLe.rfl _
      | cons g rest =>
        obtain ⟨useType, pathLinesArray⟩ := g
        rw [kbRun] at h
        by_cases hd : useType = "defs"
        · rw [if_pos hd] at h
          exact (KBLe_bindDefFile st sid pathLinesArray).trans (ih _ _ r h)
        · rw [if_neg hd] at h
          by_cases hd2 : useType = "decls"
          · rw [if_pos hd2] at h
            exact (KBLe_bindDeclFile st sid pathLinesArray).trans (ih _ _ r h)
          · rw [if_neg hd2] at h
            by_cases hd3 : useType = "uses"
            · rw [if_pos hd3] at h
              split at h
              · exact Option.noConfusion h
              · rename_i r1 hr
                exact (ih _ _ r1 hr).trans (ih _ _ r h)
            · rw [if_neg hd3] at h
              exact ih _ _ r h
    | usesPathsLoop sid hops paths =>
      cases paths with
      | nil => rw [kbRun] at h; cases h; exact KBLe.rfl _
      | cons pl rest =>
        rw [kbRun] at h
        split at h
        · exact Option.noConfusion h
        · rename_i r1 hr
          exact (ih _ _ r1 hr).trans (ih _ _ r h)
    | usesLinesLoop sid hops path lines =>
      cases lines with
      | nil => rw [kbRun] at h; cases h; exact KBLe.rfl _
      | cons lr rest =>
        rw [kbRun] at h
        simp only [] at h
        split at h
        · exact Option.noConfusion h
        · rename_i st1 hr1
          refine KBLe.trans ?_ (ih _ _ r h)
          revert hr1; split
          · split
            · exact fun hr1 => Option.noConfusion hr1
            · rename_i res hres
              intro hr1
              cases hr1
              exact (ih _ _ res hres).trans
                (((KBLe_updSym _ _ _).trans (KBLe_pushDirty _ _)).trans
                  ((KBLe_updSym _ _ _).trans (KBLe_pushDirty _ _)))
          · intro hr1; cases hr1; exact KBLe.rfl _
/-- Spec invariant: edges occur in mirrored pairs — `A ∈ B.outEdges` iff
`B ∈ A.inEdges`. -/
def Mirror (st : KBState) : Prop :=
  ∀ a b, b ∈ (st.syms a).outEdges ↔ a ∈ (st.syms b).inEdges

/-- The well-formedness package of a `KnowledgeBase` state: cached ids are
allocated; unallocated ids carry no edges; edges point at allocated ids;
edges are mirrored; and no analyzed level exceeds 2. -/
def KBInv (st : KBState) : Prop :=
  (∀ k i, alistFind st.symbolsByRawName k = some i → i < st.nextSymId) ∧
  (∀ i, st.nextSymId ≤ i →
    (st.syms i).outEdges = [] ∧ (st.syms i).inEdges = []) ∧
  (∀ i j, j ∈ (st.syms i).outEdges → j < st.nextSymId) ∧
  (∀ i j, j ∈ (st.syms i).inEdges → j < st.nextSymId) ∧
  Mirror st ∧
  (∀ s, JSNum.gt (st.syms s).analyzed (.int 2) = false)

/-- Argument sanity of an interpreter call: every symbol id handed to a
method denotes an allocated `SymbolInfo` (JS callers hold object references,
which in this model are ids below the allocation counter). -/
def ValidCall : KBCall → KBState → Prop
  | .lookup _ _ _ _, _ => True
  | .esa sid _, st => sid < st.nextSymId
  | .esaPropagate others _, st => ∀ o ∈ others, o < st.nextSymId
  | .analyze sid _, st => sid < st.nextSymId
  | .semanticLoop sid _ _, st => sid < st.nextSymId
  | .consumesLoop sid _ _, st => sid < st.nextSymId
  | .hitsLoop sid _ _, st => sid < st.nextSymId
  | .useGroupsLoop sid _ _, st => sid < st.nextSymId
  | .usesPathsLoop sid _ _, st => sid < st.nextSymId
  | .usesLinesLoop sid _ _ _, st => sid < st.nextSymId

theorem initKB_inv : KBInv initKB := by
  refine ⟨?_, ?_, ?_, ?_, ?_, ?_⟩
  · intro k i h; cases h
  · intro i _; exact ⟨rfl, rfl⟩
  · intro i j h; cases h
  · intro i j h; cases h
  · intro a b
    simp [initKB, SymRec.empty, SymRec.init]
  · intro s; rfl

theorem KBInv_of_eq {st st' : KBState} (hsy : st'.syms = st.syms)
    (hm : st'.symbolsByRawName = st.symbolsByRawName)
    (hn : st'.nextSymId = st.nextSymId) (h : KBInv st) : KBInv st' := by
  obtain ⟨h1, h2, h3, h4, h5, h6⟩ := h
  refine ⟨?_, ?_, ?_, ?_, ?_, ?_⟩
  · intro k i hf; rw [hm] at hf; rw [hn]; exact h1 k i hf
  · intro i hge; rw [hsy]; rw [hn] at hge; exact h2 i hge
  · intro i j hj; rw [hsy] at hj; rw [hn]; exact h3 i j hj
  · intro i j hj; rw [hsy] at hj; rw [hn]; exact h4 i j hj
  · intro a b; rw [hsy]; exact h5 a b
  · intro s; rw [hsy]; exact h6 s

/-- `updSym` with a field change that leaves both edge sets alone and keeps
the analyzed level in bounds preserves the invariant. -/
theorem KBInv_updSym {st : KBState} {sid : Nat} {f : SymRec → SymRec}
    (hout : ∀ q, (f q).outEdges = q.outEdges)
    (hin : ∀ q, (f q).inEdges = q.inEdges)
    (hana : ∀ q, JSNum.gt q.analyzed (.int 2) = false →
      JSNum.gt (f q).analyzed (.int 2) = false)
    (h : KBInv st) : KBInv (updSym st sid f) := by
  obtain ⟨h1, h2, h3, h4, h5, h6⟩ := h
  have pout : ∀ i, ((updSym st sid f).syms i).outEdges =
      (st.syms i).outEdges := by
    intro i
    by_cases hi : i = sid
    · subst hi; simp [updSym, updFun, hout]
    · simp [updSym, updFun, hi]
  have pin : ∀ i, ((updSym st sid f).syms i).inEdges =
      (st.syms i).inEdges := by
    intro i
    by_cases hi : i = sid
    · subst hi; simp [updSym, updFun, hin]
    · simp [updSym, updFun, hi]
  refine ⟨h1, ?_, ?_, ?_, ?_, ?_⟩
  · intro i hge; rw [pout, pin]; exact h2 i hge
  · intro i j hj; rw [pout] at hj; exact h3 i j hj
  · intro i j hj; rw [pin] at hj; exact h4 i j hj
  · intro a b; rw [pout, pin]; exact h5 a b
  · intro s
    by_cases hs : s = sid
    · subst hs; simp only [updSym, updFun, if_pos rfl]
      exact hana _ (h6 s)
    · simp only [updSym, updFun, if_neg hs]
      exact h6 s

/-- Creating a fresh symbol record under an unbound key preserves the
invariant. -/
theorem KBInv_create {st : KBState} (key : Option String)
    (_hkey : alistFind st.symbolsByRawName key = none)
    (rawName prettyName : Option String) (opts : LookupOpts)
    (h : KBInv st) :
    KBInv
      { st with
        syms := updFun st.syms st.nextSymId
          (SymRec.init rawName prettyName opts)
        nextSymId := st.nextSymId + 1
        symbolsByRawName := alistSet st.symbolsByRawName key st.nextSymId } := by
  obtain ⟨h1, h2, h3, h4, h5, h6⟩ := h
  have pout : ∀ i, (updFun st.syms st.nextSymId
      (SymRec.init rawName prettyName opts) i).outEdges =
      if i = st.nextSymId then [] else (st.syms i).outEdges := by
    intro i; by_cases hi : i = st.nextSymId <;> simp [updFun, hi, SymRec.init]
  have pin : ∀ i, (updFun st.syms st.nextSymId
      (SymRec.init rawName prettyName opts) i).inEdges =
      if i = st.nextSymId then [] else (st.syms i).inEdges := by
    intro i; by_cases hi : i = st.nextSymId <;> simp [updFun, hi, SymRec.init]
  refine ⟨?_, ?_, ?_, ?_, ?_, ?_⟩
  · intro k i hfind
    dsimp only at hfind ⊢
    simp only [alistFind_alistSet] at hfind
    by_cases hk : key = k
    · rw [if_pos hk] at hfind
      cases hfind
      exact Nat.lt_succ_self _
    · rw [if_neg hk] at hfind
      exact Nat.lt_succ_of_lt (h1 k i hfind)
  · intro i hge
    dsimp only at hge ⊢
    have hne : ¬(i = st.nextSymId) := by omega
    rw [pout, pin, if_neg hne, if_neg hne]
    exact h2 i (by omega)
  · intro i j hj
    dsimp only at hj ⊢
    rw [pout] at hj
    by_cases hi : i = st.nextSymId
    · rw [if_pos hi] at hj; cases hj
    · rw [if_neg hi] at hj
      exact Nat.lt_succ_of_lt (h3 i j hj)
  · intro i j hj
    dsimp only at hj ⊢
    rw [pin] at hj
    by_cases hi : i = st.nextSymId
    · rw [if_pos hi] at hj; cases hj
    · rw [if_neg hi] at hj
      exact Nat.lt_succ_of_lt (h4 i j hj)
  · intro a b
    dsimp only
    rw [pout, pin]
    by_cases ha : a = st.nextSymId
    · rw [if_pos ha]
      by_cases hb : b = st.nextSymId
      · rw [if_pos hb]; simp
      · rw [if_neg hb]
        constructor
        · intro hx; cases hx
        · intro hx
          rw [ha] at hx
          exact absurd (h4 b st.nextSymId hx) (by omega)
    · rw [if_neg ha]
      by_cases hb : b = st.nextSymId
      · rw [if_pos hb]
        constructor
        · intro hx
          rw [hb] at hx
          exact absurd (h3 a st.nextSymId hx) (by omega)
        · intro hx; cases hx
      · rw [if_neg hb]
        exact h5 a b
  · intro s
    dsimp only
    by_cases hs : s = st.nextSymId
    · subst hs
      simp [updFun, SymRec.init, JSNum.gt, JSNum.lt]
    · simp only [updFun, if_neg hs]
      exact h6 s

theorem mirror_of_proj {st T : KBState} (a b : Nat)
    (pout : ∀ x, (T.syms x).outEdges =
      if x = a then setAdd (st.syms a).outEdges b else (st.syms x).outEdges)
    (pin : ∀ y, (T.syms y).inEdges =
      if y = b then setAdd (st.syms b).inEdges a else (st.syms y).inEdges)
    (hm : Mirror st) : Mirror T := by
  intro x y
  rw [pout, pin]
  by_cases hxa : x = a
  · subst hxa
    rw [if_pos rfl]
    by_cases hyb : y = b
    · subst hyb
      rw [if_pos rfl]
      simp [mem_setAdd]
    · rw [if_neg hyb, mem_setAdd]
      constructor
      · rintro (hy | hy)
        · exact (hm x y).mp hy
        · exact absurd hy hyb
      · intro hy
        exact Or.inl ((hm x y).mpr hy)
  · rw [if_neg hxa]
    by_cases hyb : y = b
    · subst hyb
      rw [if_pos rfl, mem_setAdd]
      constructor
      · intro hy
        exact Or.inl ((hm x y).mp hy)
      · rintro (hy | hy)
        · exact (hm x y).mpr hy
        · exact absurd hy hxa
    · rw [if_neg hyb]
      exact hm x y

/-- The mirrored edge-pair insertion of the `consumes` loop
(`sym.outEdges.add(c)` / `c.inEdges.add(sym)` with the dirty marks in
between) preserves the invariant. -/
theorem KBInv_addPair_out (st : KBState) (a b : Nat)
    (ha : a < st.nextSymId) (hb : b < st.nextSymId) (h : KBInv st) :
    KBInv (pushDirty (updSym (pushDirty (updSym st a
      (fun q => { q with outEdges := setAdd q.outEdges b })) a) b
      (fun q => { q with inEdges := setAdd q.inEdges a })) b) := by
  obtain ⟨h1, h2, h3, h4, h5, h6⟩ := h
  set T := pushDirty (updSym (pushDirty (updSym st a
      (fun q => { q with outEdges := setAdd q.outEdges b })) a) b
      (fun q => { q with inEdges := setAdd q.inEdges a })) b with hT
  have pout : ∀ x, (T.syms x).outEdges =
      if x = a then setAdd (st.syms a).outEdges b else (st.syms x).outEdges := by
    intro x
    rw [hT]
    by_cases hxb : x = b
    · by_cases hxa : x = a
      · have hba : b = a := by rw [← hxb, hxa]
        simp [pushDirty, updSym, updFun, hxb, hxa, hba]
      · have hba : ¬b = a := fun he => hxa (hxb.trans he)
        simp [pushDirty, updSym, updFun, hxb, hxa, hba]
    · by_cases hxa : x = a
      · have hab : ¬a = b := fun he => hxb (hxa.trans he)
        simp [pushDirty, updSym, updFun, hxb, hxa, hab]
      · simp [pushDirty, updSym, updFun, hxb, hxa]
  have pin : ∀ y, (T.syms y).inEdges =
      if y = b then setAdd (st.syms b).inEdges a else (st.syms y).inEdges := by
    intro y
    rw [hT]
    by_cases hyb : y = b
    · by_cases hba : b = a
      · simp [pushDirty, updSym, updFun, hyb, hba]
      · simp [pushDirty, updSym, updFun, hyb, hba]
    · by_cases hya : y = a
      · have hab : ¬a = b := fun he => hyb (hya.trans he)
        simp [pushDirty, updSym, updFun, hyb, hya, hab]
      · simp [pushDirty, updSym, updFun, hyb, hya]
  have pana : ∀ s, (T.syms s).analyzed = (st.syms s).analyzed := by
    intro s
    rw [hT]
    by_cases hsb : s = b
    · by_cases hba : b = a
      · simp [pushDirty, updSym, updFun, hsb, hba]
      · simp [pushDirty, updSym, updFun, hsb, hba]
    · by_cases hsa : s = a
      · have hab : ¬a = b := fun he => hsb (hsa.trans he)
        simp [pushDirty, updSym, updFun, hsb, hsa, hab]
      · simp [pushDirty, updSym, updFun, hsb, hsa]
  refine ⟨h1, ?_, ?_, ?_, ?_, ?_⟩
  · intro i hge
    have hia : ¬(i = a) := by
      intro he
      rw [he] at hge
      exact absurd (lt_of_lt_of_le ha hge) (lt_irrefl a)
    have hib : ¬(i = b) := by
      intro he
      rw [he] at hge
      exact absurd (lt_of_lt_of_le hb hge) (lt_irrefl b)
    rw [pout, pin, if_neg hia, if_neg hib]
    exact h2 i hge
  · intro i j hj
    rw [pout] at hj
    by_cases hi : i = a
    · rw [if_pos hi, mem_setAdd] at hj
      rcases hj with hj | hj
      · exact h3 a j hj
      · rw [hj]; exact hb
    · rw [if_neg hi] at hj
      exact h3 i j hj
  · intro i j hj
    rw [pin] at hj
    by_cases hi : i = b
    · rw [if_pos hi, mem_setAdd] at hj
      rcases hj with hj | hj
      · exact h4 b j hj
      · rw [hj]; exact ha
    · rw [if_neg hi] at hj
      exact h4 i j hj
  · exact mirror_of_proj a b pout pin h5
  · intro s; rw [pana]; exact h6 s

/-- The mirrored edge-pair insertion of the `uses` loop
(`sym.inEdges.add(ctx)` / `ctx.outEdges.add(sym)`) preserves the
invariant. -/
theorem KBInv_addPair_in (st : KBState) (a b : Nat)
    (ha : a < st.nextSymId) (hb : b < st.nextSymId) (h : KBInv st) :
    KBInv (pushDirty (updSym (pushDirty (updSym st b
      (fun q => { q with inEdges := setAdd q.inEdges a })) b) a
      (fun q => { q with outEdges := setAdd q.outEdges b })) a) := by
  obtain ⟨h1, h2, h3, h4, h5, h6⟩ := h
  set T := pushDirty (updSym (pushDirty (updSym st b
      (fun q => { q with inEdges := setAdd q.inEdges a })) b) a
      (fun q => { q with outEdges := setAdd q.outEdges b })) a with hT
  have pout : ∀ x, (T.syms x).outEdges =
      if x = a then setAdd (st.syms a).outEdges b else (st.syms x).outEdges := by
    intro x
    rw [hT]
    by_cases hxa : x = a
    · by_cases hab : a = b
      · simp [pushDirty, updSym, updFun, hxa, hab]
      · simp [pushDirty, updSym, updFun, hxa, hab]
    · by_cases hxb : x = b
      · have hba : ¬b = a := fun he => hxa (hxb.trans he)
        simp [pushDirty, updSym, updFun, hxa, hxb, hba]
      · simp [pushDirty, updSym, updFun, hxa, hxb]
  have pin : ∀ y, (T.syms y).inEdges =
      if y = b then setAdd (st.syms b).inEdges a else (st.syms y).inEdges := by
    intro y
    rw [hT]
    by_cases hya : y = a
    · by_cases hab : a = b
      · simp [pushDirty, updSym, updFun, hya, hab]
      · have hyb : ¬y = b := by rw [hya]; exact hab
        simp [pushDirty, updSym, updFun, hya, hab, hyb]
    · by_cases hyb : y = b
      · have hba : ¬b = a := fun he => hya (hyb.trans he)
        simp [pushDirty, updSym, updFun, hya, hyb, hba]
      · simp [pushDirty, updSym, updFun, hya, hyb]
  have pana : ∀ s, (T.syms s).analyzed = (st.syms s).analyzed := by
    intro s
    rw [hT]
    by_cases hsa : s = a
    · by_cases hab : a = b
      · simp [pushDirty, updSym, updFun, hsa, hab]
      · simp [pushDirty, updSym, updFun, hsa, hab]
    · by_cases hsb : s = b
      · have hba : ¬b = a := fun he => hsa (hsb.trans he)
        simp [pushDirty, updSym, updFun, hsa, hsb, hba]
      · simp [pushDirty, updSym, updFun, hsa, hsb]
  refine ⟨h1, ?_, ?_, ?_, ?_, ?_⟩
  · intro i hge
    have hia : ¬(i = a) := by
      intro he
      rw [he] at hge
      exact absurd (lt_of_lt_of_le ha hge) (lt_irrefl a)
    have hib : ¬(i = b) := by
      intro he
      rw [he] at hge
      exact absurd (lt_of_lt_of_le hb hge) (lt_irrefl b)
    rw [pout, pin, if_neg hia, if_neg hib]
    exact h2 i hge
  · intro i j hj
    rw [pout] at hj
    by_cases hi : i = a
    · rw [if_pos hi, mem_setAdd] at hj
      rcases hj with hj | hj
      · exact h3 a j hj
      · rw [hj]; exact hb
    · rw [if_neg hi] at hj
      exact h3 i j hj
  · intro i j hj
    rw [pin] at hj
    by_cases hi : i = b
    · rw [if_pos hi, mem_setAdd] at hj
      rcases hj with hj | hj
      · exact h4 b j hj
      · rw [hj]; exact ha
    · rw [if_neg hi] at hj
      exact h4 i j hj
  · exact mirror_of_proj a b pout pin h5
  · intro s; rw [pana]; exact h6 s

theorem ensureFileAnalysis_proj (st : KBState) (p : String) :
    (ensureFileAnalysis st p).2.syms = st.syms ∧
    (ensureFileAnalysis st p).2.symbolsByRawName = st.symbolsByRawName ∧
    (ensureFileAnalysis st p).2.nextSymId = st.nextSymId := by
  unfold ensureFileAnalysis mkFile
  split
  · split
    · exact ⟨rfl, rfl, rfl⟩
    · exact ⟨rfl, rfl, rfl⟩
  · exact ⟨rfl, rfl, rfl⟩

theorem KBInv_bindDefFile (st : KBState) (sid : Nat)
    (pls : List PathLines) (h : KBInv st) : KBInv (bindDefFile st sid pls) := by
  unfold bindDefFile
  split
  · rename_i pl hsf
    dsimp only
    obtain ⟨e1, e2, e3⟩ := ensureFileAnalysis_proj st pl.path
    have hE : KBInv (ensureFileAnalysis st pl.path).2 := KBInv_of_eq e1 e2 e3 h
    have hX : KBInv (updSym (ensureFileAnalysis st pl.path).2 sid
        (fun q =>
          { q with sourceFileInfo := some (ensureFileAnalysis st pl.path).1 })) :=
      KBInv_updSym (fun q => rfl) (fun q => rfl) (fun q hq => hq) hE
    exact KBInv_of_eq rfl rfl rfl hX
  · exact h

theorem KBInv_bindDeclFile (st : KBState) (sid : Nat)
    (pls : List PathLines) (h : KBInv st) :
    KBInv (bindDeclFile st sid pls) := by
  unfold bindDeclFile
  split
  · rename_i pl hsf
    dsimp only
    obtain ⟨e1, e2, e3⟩ := ensureFileAnalysis_proj st pl.path
    have hE : KBInv (ensureFileAnalysis st pl.path).2 := KBInv_of_eq e1 e2 e3 h
    have hX : KBInv (updSym (ensureFileAnalysis st pl.path).2 sid
        (fun q =>
          { q with declFileInfo := some (ensureFileAnalysis st pl.path).1 })) :=
      KBInv_updSym (fun q => rfl) (fun q => rfl) (fun q hq => hq) hE
    exact KBInv_of_eq rfl rfl rfl hX
  · exact h

/-- The id returned by a completed `lookupRawSymbol` denotes an allocated
symbol. -/
theorem lookup_id_lt (env : SearchEnv) (fuel : Nat) (rawName : Option String)
    (doA : DoAnalyze) (p : Option String) (o : LookupOpts) (st : KBState)
    (r : Nat × KBState) (h : kbRun env fuel (.lookup rawName doA p o) st = some r)
    (hBM : ∀ k i, alistFind st.symbolsByRawName k = some i →
      i < st.nextSymId) :
    r.1 < r.2.nextSymId := by
  cases fuel with
  | zero => cases h
  | succ fuel =>
    rw [kbRun] at h
    split at h
    · rename_i sid hf
      simp only [] at h
      have hst1 : (if (strTruthy p && !strTruthy (st.syms sid).prettyName)
          = true then updatePrettyNameFrom st sid p else st).nextSymId
          = st.nextSymId := by
        split <;> rfl
      split at h
      · split at h
        · rename_i r1 hr
          cases h
          have hle := (kbRun_le env fuel _ _ r1 hr).1
          rw [hst1] at hle
          exact lt_of_lt_of_le (hBM _ _ hf) hle
        · exact Option.noConfusion h
      · cases h
        show sid < _
        rw [hst1]
        exact hBM _ _ hf
    · rename_i hf
      simp only [] at h
      split at h
      · split at h
        · rename_i r1 hr
          cases h
          have hle : st.nextSymId + 1 ≤ r1.2.nextSymId :=
            (kbRun_le env fuel _ _ r1 hr).1
          exact lt_of_lt_of_le (Nat.lt_succ_self _) hle
        · exact Option.noConfusion h
      · cases h
        exact Nat.lt_succ_self _

theorem updSym_syms_self (st : KBState) (i : Nat) (f : SymRec → SymRec) :
    (updSym st i f).syms i = f (st.syms i) := by
  simp [updSym, updFun]

theorem bindDefFile_nextSymId (st : KBState) (sid : Nat)
    (pls : List PathLines) : (bindDefFile st sid pls).nextSymId = st.nextSymId := by
  unfold bindDefFile
  split
  · rename_i pl hsf
    exact (ensureFileAnalysis_proj st pl.path).2.2
  · rfl

theorem bindDeclFile_nextSymId (st : KBState) (sid : Nat)
    (pls : List PathLines) :
    (bindDeclFile st sid pls).nextSymId = st.nextSymId := by
  unfold bindDeclFile
  split
  · rename_i pl hsf
    exact (ensureFileAnalysis_proj st pl.path).2.2
  · rfl

/-- Any completed interpreter step with sane arguments preserves the
well-formedness package `KBInv` — in particular edge mirroring and the
2-clamp of analyzed levels. -/
theorem kbRun_inv (env : SearchEnv) :
    ∀ fuel c st r, kbRun env fuel c st = some r → ValidCall c st → KBInv st →
      KBInv r.2 := by
  intro fuel
  induction fuel with
  | zero => intro c st r h _ _; cases h
  | succ fuel ih =>
    intro c st r h hv hi
    cases c with
    | lookup rawName doAnalyze prettyName opts =>
      rw [kbRun] at h
      split at h
      · rename_i sid hf
        simp only [] at h
        set stP :=
          (if (strTruthy prettyName && !strTruthy (st.syms sid).prettyName)
              = true then
            updatePrettyNameFrom st sid prettyName
          else st) with hstP
        have hiP : KBInv stP := by
          rw [hstP]; split
          · exact KBInv_updSym (fun q => rfl) (fun q => rfl) (fun q hq => hq) hi
          · exact hi
        have hnP : stP.nextSymId = st.nextSymId := by
          rw [hstP]; split <;> rfl
        split at h
        · split at h
          · rename_i r1 hr
            cases h
            refine ih _ _ r1 hr ?_ hiP
            show sid < stP.nextSymId
            rw [hnP]
            exact hi.1 _ _ hf
          · exact Option.noConfusion h
        · cases h; exact hiP
      · rename_i hf
        simp only [] at h
        have hiC : KBInv
            { st with
              syms := updFun st.syms st.nextSymId
                (SymRec.init rawName prettyName opts)
              nextSymId := st.nextSymId + 1
              symbolsByRawName := alistSet st.symbolsByRawName
                (normalizeSymbol rawName false) st.nextSymId } :=
          KBInv_create _ hf _ _ _ hi
        split at h
        · split at h
          · rename_i r1 hr
            cases h
            refine ih _ _ r1 hr ?_ hiC
            exact Nat.lt_succ_self _
          · exact Option.noConfusion h
        · cases h; exact hiC
    | esa sid hops =>
      rw [kbRun] at h
      simp only [] at h
      have hi0 : KBInv (pushEsaLog st sid hops) := KBInv_of_eq rfl rfl rfl hi
      split at h
      · split at h
        · split at h
          · exact Option.noConfusion h
          · rename_i st2 hr2
            split at h
            · exact Option.noConfusion h
            · rename_i st3 hr3
              cases h
              have hi1 : KBInv (updSym (pushEsaLog st sid hops) sid
                  (fun q => { q with analyzed := hops.minTwo })) :=
                KBInv_updSym (fun q => rfl) (fun q => rfl)
                  (fun q _ => JSNum.not_gt_two_minTwo hops) hi0
              have hi2 : KBInv st2 := by
                revert hr2; split
                · intro hr2
                  rw [Option.map_eq_some'] at hr2
                  obtain ⟨q, hq, hsnd⟩ := hr2
                  rw [← hsnd]
                  refine ih _ _ q hq ?_ hi1
                  intro o ho
                  rw [updSym_syms_self] at ho
                  exact hi.2.2.1 sid o ho
                · intro hr2; cases hr2; exact hi1
              have hi3 : KBInv st3 := by
                revert hr3; split
                · intro hr3
                  rw [Option.map_eq_some'] at hr3
                  obtain ⟨q, hq, hsnd⟩ := hr3
                  rw [← hsnd]
                  refine ih _ _ q hq ?_ hi2
                  intro o ho
                  exact hi2.2.2.2.1 sid o ho
                · intro hr3; cases hr3; exact hi2
              exact hi3
        · cases h; exact hi0
      · split at h
        · cases h; exact hi0
        · split at h
          · exact Option.noConfusion h
          · rename_i r1 hr
            cases h
            have hiU : KBInv (updSym (pushEsaLog st sid hops) sid
                (fun q => { q with analyzing := true })) :=
              KBInv_updSym (fun q => rfl) (fun q => rfl) (fun q hq => hq) hi0
            have hiA : KBInv
                { updSym (pushEsaLog st sid hops) sid
                    (fun q => { q with analyzing := true }) with
                  analyzingSymbols :=
                    setAdd (pushEsaLog st sid hops).analyzingSymbols sid } :=
              KBInv_of_eq rfl rfl rfl hiU
            have hval : sid <
                ({ updSym (pushEsaLog st sid hops) sid
                    (fun q => { q with analyzing := true }) with
                  analyzingSymbols :=
                    setAdd (pushEsaLog st sid hops).analyzingSymbols
                      sid } : KBState).nextSymId := hv
            have hiR : KBInv r1.2 := ih _ _ r1 hr hval hiA
            have hiF : KBInv (updSym r1.2 sid
                (fun q =>
                  { q with analyzing := false, analyzed := hops.minTwo })) :=
              KBInv_updSym (fun q => rfl) (fun q => rfl)
                (fun q _ => JSNum.not_gt_two_minTwo hops) hiR
            exact KBInv_of_eq rfl rfl rfl hiF
    | esaPropagate others hops =>
      cases others with
      | nil => rw [kbRun] at h; cases h; exact hi
      | cons o rest =>
        rw [kbRun] at h
        split at h
        · exact Option.noConfusion h
        · rename_i r1 hr
          have hio : KBInv r1.2 := ih _ _ r1 hr (hv o (List.mem_cons_self o rest)) hi
          refine ih _ _ r h ?_ hio
          intro o' ho'
          exact lt_of_lt_of_le (hv o' (List.mem_cons_of_mem o ho'))
            (kbRun_le env fuel _ _ r1 hr).1
    | analyze sid hops =>
      rw [kbRun] at h
      refine ih _ _ r h ?_ (KBInv_of_eq rfl rfl rfl hi)
      exact hv
    | semanticLoop sid hops entries =>
      cases entries with
      | nil => rw [kbRun] at h; cases h; exact hi
      | cons entry rest =>
        rw [kbRun] at h
        simp only [] at h
        split at h
        · exact Option.noConfusion h
        · rename_i st1 hr1
          have hst1 : KBInv st1 ∧ st.nextSymId ≤ st1.nextSymId := by
            revert hr1; split
            · intro hr1; cases hr1; exact ⟨hi, le_refl _⟩
            · have hiSa : KBInv
                  (match entry.meta with
                   | some m => updateSyntaxKindFrom st sid m.syn
                   | none => st) := by
                cases entry.meta
                · exact hi
                · exact KBInv_updSym (fun q => rfl) (fun q => rfl)
                    (fun q hq => hq) hi
              have hnSa :
                  (match entry.meta with
                   | some m => updateSyntaxKindFrom st sid m.syn
                   | none => st).nextSymId = st.nextSymId := by
                cases entry.meta <;> rfl
              split
              · exact fun hr1 => Option.noConfusion hr1
              · rename_i sb hrb
                have hsb : KBInv sb ∧ st.nextSymId ≤ sb.nextSymId := by
                  revert hrb; split
                  · intro hrb
                    rw [Option.map_eq_some'] at hrb
                    obtain ⟨q, hq, hsnd⟩ := hrb
                    rw [← hsnd]
                    constructor
                    · refine ih _ _ q hq ?_ hiSa
                      show sid < _
                      rw [hnSa]
                      exact hv
                    · exact le_trans (le_of_eq hnSa.symm)
                        (kbRun_le env fuel _ _ q hq).1
                  · intro hrb; cases hrb
                    exact ⟨hiSa, le_of_eq hnSa.symm⟩
                split
                · intro hr1
                  rw [Option.map_eq_some'] at hr1
                  obtain ⟨q, hq, hsnd⟩ := hr1
                  rw [← hsnd]
                  constructor
                  · refine ih _ _ q hq ?_ hsb.1
                    exact lt_of_lt_of_le hv hsb.2
                  · exact le_trans hsb.2 (kbRun_le env fuel _ _ q hq).1
                · intro hr1; cases hr1; exact hsb
          refine ih _ _ r h ?_ hst1.1
          exact lt_of_lt_of_le hv hst1.2
    | consumesLoop sid hops items =>
      cases items with
      | nil => rw [kbRun] at h; cases h; exact hi
      | cons c rest =>
        rw [kbRun] at h
        simp only [] at h
        split at h
        · exact Option.noConfusion h
        · rename_i res hr
          have hires : KBInv res.2 := ih _ _ res hr trivial hi
          have hlt : res.1 < res.2.nextSymId :=
            lookup_id_lt env fuel _ _ _ _ st res hr hi.1
          have hsid : sid < res.2.nextSymId :=
            lt_of_lt_of_le hv (kbRun_le env fuel _ _ res hr).1
          have hi4 := KBInv_addPair_out res.2 sid res.1 hsid hlt hires
          refine ih _ _ r h ?_ hi4
          show sid < _
          exact hsid
    | hitsLoop sid hops groups =>
      cases groups with
      | nil => rw [kbRun] at h; cases h; exact hi
      | cons g rest =>
        obtain ⟨pathKind, useGroups⟩ := g
        rw [kbRun] at h
        split at h
        · exact Option.noConfusion h
        · rename_i r1 hr
          have hio : KBInv r1.2 := ih _ _ r1 hr hv hi
          refine ih _ _ r h ?_ hio
          exact lt_of_lt_of_le hv (kbRun_le env fuel _ _ r1 hr).1
    | useGroupsLoop sid hops groups =>
      cases groups with
      | nil => rw [kbRun] at h; cases h; exact hi
      | cons g rest =>
        obtain ⟨useType, pathLinesArray⟩ := g
        rw [kbRun] at h
        by_cases hd : useType = "defs"
        · rw [if_pos hd] at h
          refine ih _ _ r h ?_ (KBInv_bindDefFile st sid pathLinesArray hi)
          show sid < _
          rw [bindDefFile_nextSymId]
          exact hv
        · rw [if_neg hd] at h
          by_cases hd2 : useType = "decls"
          · rw [if_pos hd2] at h
            refine ih _ _ r h ?_ (KBInv_bindDeclFile st sid pathLinesArray hi)
            show sid < _
            rw [bindDeclFile_nextSymId]
            exact hv
          · rw [if_neg hd2] at h
            by_cases hd3 : useType = "uses"
            · rw [if_pos hd3] at h
              split at h
              · exact Option.noConfusion h
              · rename_i r1 hr
                have hio : KBInv r1.2 := ih _ _ r1 hr hv hi
                refine ih _ _ r h ?_ hio
                exact lt_of_lt_of_le hv (kbRun_le env fuel _ _ r1 hr).1
            · rw [if_neg hd3] at h
              exact ih _ _ r h hv hi
    | usesPathsLoop sid hops paths =>
      cases paths with
      | nil => rw [kbRun] at h; cases h; exact hi
      | cons pl rest =>
        rw [kbRun] at h
        split at h
        · exact Option.noConfusion h
        · rename_i r1 hr
          have hio : KBInv r1.2 := ih _ _ r1 hr hv hi
          refine ih _ _ r h ?_ hio
          exact lt_of_lt_of_le hv (kbRun_le env fuel _ _ r1 hr).1
    | usesLinesLoop sid hops path lines =>
      cases lines with
      | nil => rw [kbRun] at h; cases h; exact hi
      | cons lr rest =>
        rw [kbRun] at h
        simp only [] at h
        split at h
        · exact Option.noConfusion h
        · rename_i st1 hr1
          have hst1 : KBInv st1 ∧ st.nextSymId ≤ st1.nextSymId := by
            revert hr1; split
            · split
              · exact fun hr1 => Option.noConfusion hr1
              · rename_i res hres
                intro hr1
                cases hr1
                have hires : KBInv res.2 := ih _ _ res hres trivial hi
                have hlt : res.1 < res.2.nextSymId :=
                  lookup_id_lt env fuel _ _ _ _ st res hres hi.1
                have hsid : sid < res.2.nextSymId :=
                  lt_of_lt_of_le hv (kbRun_le env fuel _ _ res hres).1
                exact ⟨KBInv_addPair_in res.2 res.1 sid hlt hsid hires,
                  (kbRun_le env fuel _ _ res hres).1⟩
            · intro hr1; cases hr1; exact ⟨hi, le_refl _⟩
          refine ih _ _ r h ?_ hst1.1
          exact lt_of_lt_of_le hv hst1.2

theorem updSym_syms_ne (st : KBState) (i : Nat) (f : SymRec → SymRec)
    (j : Nat) (h : ¬j = i) : (updSym st i f).syms j = st.syms j := by
  simp [updSym, updFun, h]

/-- A symbol whose analysis is in flight: `analyzing` truthy, `analyzed`
still falsy, allocated. -/
def Frozen (sid : Nat) (st : KBState) : Prop :=
  (st.syms sid).analyzing = true ∧ (st.syms sid).analyzed.truthy = false ∧
  sid < st.nextSymId

theorem Frozen_updSym_keep {st : KBState} {i : Nat} {f : SymRec → SymRec}
    (sid : Nat) (h1 : ∀ q, (f q).analyzed = q.analyzed)
    (h2 : ∀ q, (f q).analyzing = q.analyzing) (h : Frozen sid st) :
    Frozen sid (updSym st i f) ∧
      ((updSym st i f).syms sid).analyzed = (st.syms sid).analyzed := by
  by_cases hsi : sid = i
  · subst hsi
    refine ⟨⟨?_, ?_, h.2.2⟩, ?_⟩
    · rw [updSym_syms_self, h2]; exact h.1
    · rw [updSym_syms_self, h1]; exact h.2.1
    · rw [updSym_syms_self, h1]
  · rw [Frozen, updSym_syms_ne st i f sid hsi]
    exact ⟨⟨h.1, h.2.1, h.2.2⟩, rfl⟩

theorem Frozen_of_eq {st st' : KBState} (sid : Nat)
    (hsy : st'.syms = st.syms) (hn : st'.nextSymId = st.nextSymId)
    (h : Frozen sid st) :
    Frozen sid st' ∧ (st'.syms sid).analyzed = (st.syms sid).analyzed := by
  rw [Frozen, hsy, hn]
  exact ⟨⟨h.1, h.2.1, h.2.2⟩, rfl⟩

/-- The edge-pair insertion of the `consumes` loop never touches analysis
state. -/
theorem Frozen_addPair_out (st : KBState) (a b sid : Nat)
    (h : Frozen sid st) :
    Frozen sid (pushDirty (updSym (pushDirty (updSym st a
        (fun q => { q with outEdges := setAdd q.outEdges b })) a) b
        (fun q => { q with inEdges := setAdd q.inEdges a })) b) ∧
      ((pushDirty (updSym (pushDirty (updSym st a
        (fun q => { q with outEdges := setAdd q.outEdges b })) a) b
        (fun q => { q with inEdges := setAdd q.inEdges a })) b).syms
          sid).analyzed = (st.syms sid).analyzed := by
  set T := pushDirty (updSym (pushDirty (updSym st a
      (fun q => { q with outEdges := setAdd q.outEdges b })) a) b
      (fun q => { q with inEdges := setAdd q.inEdges a })) b with hT
  have p : ∀ s, (T.syms s).analyzed = (st.syms s).analyzed ∧
      (T.syms s).analyzing = (st.syms s).analyzing := by
    intro s
    rw [hT]
    by_cases hsb : s = b
    · by_cases hba : b = a
      · constructor <;> simp [pushDirty, updSym, updFun, hsb, hba]
      · constructor <;> simp [pushDirty, updSym, updFun, hsb, hba]
    · by_cases hsa : s = a
      · have hab : ¬a = b := fun he => hsb (hsa.trans he)
        constructor <;> simp [pushDirty, updSym, updFun, hsb, hsa, hab]
      · constructor <;> simp [pushDirty, updSym, updFun, hsb, hsa]
  exact ⟨⟨by rw [(p sid).2]; exact h.1, by rw [(p sid).1]; exact h.2.1,
    h.2.2⟩, (p sid).1⟩

/-- The edge-pair insertion of the `uses` loop never touches analysis
state. -/
theorem Frozen_addPair_in (st : KBState) (a b sid : Nat)
    (h : Frozen sid st) :
    Frozen sid (pushDirty (updSym (pushDirty (updSym st b
        (fun q => { q with inEdges := setAdd q.inEdges a })) b) a
        (fun q => { q with outEdges := setAdd q.outEdges b })) a) ∧
      ((pushDirty (updSym (pushDirty (updSym st b
        (fun q => { q with inEdges := setAdd q.inEdges a })) b) a
        (fun q => { q with outEdges := setAdd q.outEdges b })) a).syms
          sid).analyzed = (st.syms sid).analyzed := by
  set T := pushDirty (updSym (pushDirty (updSym st b
      (fun q => { q with inEdges := setAdd q.inEdges a })) b) a
      (fun q => { q with outEdges := setAdd q.outEdges b })) a with hT
  have p : ∀ s, (T.syms s).analyzed = (st.syms s).analyzed ∧
      (T.syms s).analyzing = (st.syms s).analyzing := by
    intro s
    rw [hT]
    by_cases hsa : s = a
    · by_cases hab : a = b
      · constructor <;> simp [pushDirty, updSym, updFun, hsa, hab]
      · constructor <;> simp [pushDirty, updSym, updFun, hsa, hab]
    · by_cases hsb : s = b
      · have hba : ¬b = a := fun he => hsa (hsb.trans he)
        constructor <;> simp [pushDirty, updSym, updFun, hsa, hsb, hba]
      · constructor <;> simp [pushDirty, updSym, updFun, hsa, hsb]
  exact ⟨⟨by rw [(p sid).2]; exact h.1, by rw [(p sid).1]; exact h.2.1,
    h.2.2⟩, (p sid).1⟩

/-- Binding a definition file never touches analysis state. -/
theorem Frozen_bindDefFile (st : KBState) (sid' : Nat) (pls : List PathLines)
    (sid : Nat) (h : Frozen sid st) :
    Frozen sid (bindDefFile st sid' pls) ∧
      ((bindDefFile st sid' pls).syms sid).analyzed =
        (st.syms sid).analyzed := by
  unfold bindDefFile
  split
  · rename_i pl hsf
    dsimp only
    obtain ⟨e1, e2, e3⟩ := ensureFileAnalysis_proj st pl.path
    have hq1 : Frozen sid (ensureFileAnalysis st pl.path).2 ∧
        ((ensureFileAnalysis st pl.path).2.syms sid).analyzed =
          (st.syms sid).analyzed := Frozen_of_eq sid e1 e3 h
    have hq2 : Frozen sid (updSym (ensureFileAnalysis st pl.path).2 sid'
        (fun q =>
          { q with sourceFileInfo := some (ensureFileAnalysis st pl.path).1 })) ∧
        ((updSym (ensureFileAnalysis st pl.path).2 sid'
          (fun q =>
            { q with
              sourceFileInfo := some (ensureFileAnalysis st pl.path).1 })).syms
            sid).analyzed = ((ensureFileAnalysis st pl.path).2.syms
            sid).analyzed :=
      Frozen_updSym_keep sid (fun q => rfl) (fun q => rfl) hq1.1
    exact ⟨⟨hq2.1.1, hq2.1.2.1, hq2.1.2.2⟩, (hq2.2.trans hq1.2)⟩
  · exact ⟨h, rfl⟩

/-- Binding a declaration file never touches analysis state. -/
theorem Frozen_bindDeclFile (st : KBState) (sid' : Nat) (pls : List PathLines)
    (sid : Nat) (h : Frozen sid st) :
    Frozen sid (bindDeclFile st sid' pls) ∧
      ((bindDeclFile st sid' pls).syms sid).analyzed =
        (st.syms sid).analyzed := by
  unfold bindDeclFile
  split
  · rename_i pl hsf
    dsimp only
    obtain ⟨e1, e2, e3⟩ := ensureFileAnalysis_proj st pl.path
    have hq1 : Frozen sid (ensureFileAnalysis st pl.path).2 ∧
        ((ensureFileAnalysis st pl.path).2.syms sid).analyzed =
          (st.syms sid).analyzed := Frozen_of_eq sid e1 e3 h
    have hq2 : Frozen sid (updSym (ensureFileAnalysis st pl.path).2 sid'
        (fun q =>
          { q with declFileInfo := some (ensureFileAnalysis st pl.path).1 })) ∧
        ((updSym (ensureFileAnalysis st pl.path).2 sid'
          (fun q =>
            { q with
              declFileInfo := some (ensureFileAnalysis st pl.path).1 })).syms
            sid).analyzed = ((ensureFileAnalysis st pl.path).2.syms
            sid).analyzed :=
      Frozen_updSym_keep sid (fun q => rfl) (fun q => rfl) hq1.1
    exact ⟨⟨hq2.1.1, hq2.1.2.1, hq2.1.2.2⟩, (hq2.2.trans hq1.2)⟩
  · exact ⟨h, rfl⟩

/-- While a symbol's analysis is in flight, no interpreter step resolves or
changes its `analyzed` level: the only writer is the completion step of its
own `ensureSymbolAnalysis` call, which is blocked by the `analyzing`
check. -/
theorem kbRun_frozen (env : SearchEnv) (sid : Nat) :
    ∀ fuel c st r, kbRun env fuel c st = some r → Frozen sid st →
      Frozen sid r.2 ∧ (r.2.syms sid).analyzed = (st.syms sid).analyzed := by
  intro fuel
  induction fuel with
  | zero => intro c st r h _; cases h
  | succ fuel ih =>
    intro c st r h hF
    cases c with
    | lookup rawName doAnalyze prettyName opts =>
      rw [kbRun] at h
      split at h
      · rename_i sid' hf
        simp only [] at h
        set stP :=
          (if (strTruthy prettyName && !strTruthy (st.syms sid').prettyName)
              = true then
            updatePrettyNameFrom st sid' prettyName
          else st) with hstP
        have hFP : Frozen sid stP ∧
            (stP.syms sid).analyzed = (st.syms sid).analyzed := by
          rw [hstP]; split
          · exact Frozen_updSym_keep sid (fun q => rfl) (fun q => rfl) hF
          · exact ⟨hF, rfl⟩
        split at h
        · split at h
          · rename_i r1 hr
            cases h
            obtain ⟨hF1, he1⟩ := ih _ _ r1 hr hFP.1
            exact ⟨hF1, he1.trans hFP.2⟩
          · exact Option.noConfusion h
        · cases h; exact hFP
      · rename_i hf
        simp only [] at h
        have hFC : Frozen sid
            { st with
              syms := updFun st.syms st.nextSymId
                (SymRec.init rawName prettyName opts)
              nextSymId := st.nextSymId + 1
              symbolsByRawName := alistSet st.symbolsByRawName
                (normalizeSymbol rawName false) st.nextSymId } ∧
            (updFun st.syms st.nextSymId
              (SymRec.init rawName prettyName opts) sid).analyzed =
              (st.syms sid).analyzed := by
          have hne : ¬sid = st.nextSymId := fun he => absurd hF.2.2 (by omega)
          constructor
          · refine ⟨?_, ?_, ?_⟩
            · show (updFun st.syms st.nextSymId _ sid).analyzing = true
              rw [updFun, if_neg hne]
              exact hF.1
            · show (updFun st.syms st.nextSymId _ sid).analyzed.truthy = false
              rw [updFun, if_neg hne]
              exact hF.2.1
            · exact Nat.lt_succ_of_lt hF.2.2
          · rw [updFun, if_neg hne]
        split at h
        · split at h
          · rename_i r1 hr
            cases h
            obtain ⟨hF1, he1⟩ := ih _ _ r1 hr hFC.1
            exact ⟨hF1, he1.trans hFC.2⟩
          · exact Option.noConfusion h
        · cases h; exact hFC
    | esa sid' hops =>
      rw [kbRun] at h
      simp only [] at h
      have hF0 : Frozen sid (pushEsaLog st sid' hops) ∧
          ((pushEsaLog st sid' hops).syms sid).analyzed =
            (st.syms sid).analyzed :=
        ⟨⟨hF.1, hF.2.1, hF.2.2⟩, rfl⟩
      split at h
      · rename_i htru
        have hss : ¬sid = sid' := by
          intro he
          rw [← he] at htru
          have hcon : (st.syms sid).analyzed.truthy = true := htru
          rw [hF.2.1] at hcon
          cases hcon
        split at h
        · split at h
          · exact Option.noConfusion h
          · rename_i st2 hr2
            split at h
            · exact Option.noConfusion h
            · rename_i st3 hr3
              cases h
              have hF1 : Frozen sid (updSym (pushEsaLog st sid' hops) sid'
                  (fun q => { q with analyzed := hops.minTwo })) ∧
                  ((updSym (pushEsaLog st sid' hops) sid'
                    (fun q => { q with analyzed := hops.minTwo })).syms
                      sid).analyzed = (st.syms sid).analyzed := by
                constructor
                · rw [Frozen, updSym_syms_ne _ _ _ sid hss]
                  exact ⟨hF.1, hF.2.1, hF.2.2⟩
                · rw [updSym_syms_ne _ _ _ sid hss]
                  rfl
              have hF2 : Frozen sid st2 ∧
                  (st2.syms sid).analyzed = (st.syms sid).analyzed := by
                revert hr2; split
                · intro hr2
                  rw [Option.map_eq_some'] at hr2
                  obtain ⟨q, hq, hsnd⟩ := hr2
                  rw [← hsnd]
                  obtain ⟨ha, hb⟩ := ih _ _ q hq hF1.1
                  exact ⟨ha, hb.trans hF1.2⟩
                · intro hr2; cases hr2; exact hF1
              have hF3 : Frozen sid st3 ∧
                  (st3.syms sid).analyzed = (st.syms sid).analyzed := by
                revert hr3; split
                · intro hr3
                  rw [Option.map_eq_some'] at hr3
                  obtain ⟨q, hq, hsnd⟩ := hr3
                  rw [← hsnd]
                  obtain ⟨ha, hb⟩ := ih _ _ q hq hF2.1
                  exact ⟨ha, hb.trans hF2.2⟩
                · intro hr3; cases hr3; exact hF2
              exact hF3
        · cases h; exact hF0
      · split at h
        · cases h; exact hF0
        · rename_i hnotru hnotana
          have hss : ¬sid = sid' := by
            intro he
            rw [← he] at hnotana
            exact hnotana hF.1
          split at h
          · exact Option.noConfusion h
          · rename_i r1 hr
            cases h
            have hFA : Frozen sid
                { updSym (pushEsaLog st sid' hops) sid'
                    (fun q => { q with analyzing := true }) with
                  analyzingSymbols :=
                    setAdd (pushEsaLog st sid' hops).analyzingSymbols sid' } ∧
                ((updSym (pushEsaLog st sid' hops) sid'
                  (fun q => { q with analyzing := true })).syms sid).analyzed
                  = (st.syms sid).analyzed := by
              constructor
              · refine ⟨?_, ?_, ?_⟩
                · show ((updSym (pushEsaLog st sid' hops) sid'
                      (fun q => { q with analyzing := true })).syms
                        sid).analyzing = true
                  rw [updSym_syms_ne _ _ _ sid hss]
                  exact hF.1
                · show ((updSym (pushEsaLog st sid' hops) sid'
                      (fun q => { q with analyzing := true })).syms
                        sid).analyzed.truthy = false
                  rw [updSym_syms_ne _ _ _ sid hss]
                  exact hF.2.1
                · exact hF.2.2
              · rw [updSym_syms_ne _ _ _ sid hss]
                rfl
            obtain ⟨hFR, heR⟩ := ih _ _ r1 hr hFA.1
            have hFf : Frozen sid (updSym r1.2 sid'
                (fun q =>
                  { q with analyzing := false, analyzed := hops.minTwo })) ∧
                ((updSym r1.2 sid'
                  (fun q =>
                    { q with analyzing := false, analyzed := hops.minTwo })).syms
                  sid).analyzed = (r1.2.syms sid).analyzed := by
              constructor
              · rw [Frozen, updSym_syms_ne _ _ _ sid hss]
                exact ⟨hFR.1, hFR.2.1, hFR.2.2⟩
              · rw [updSym_syms_ne _ _ _ sid hss]
            refine ⟨⟨hFf.1.1, hFf.1.2.1, hFf.1.2.2⟩, ?_⟩
            show ((updSym r1.2 sid'
                (fun q =>
                  { q with analyzing := false, analyzed := hops.minTwo })).syms
                sid).analyzed = (st.syms sid).analyzed
            rw [updSym_syms_ne _ _ _ sid hss]
            exact heR.trans hFA.2
    | esaPropagate others hops =>
      cases others with
      | nil => rw [kbRun] at h; cases h; exact ⟨hF, rfl⟩
      | cons o rest =>
        rw [kbRun] at h
        split at h
        · exact Option.noConfusion h
        · rename_i r1 hr
          obtain ⟨hF1, he1⟩ := ih _ _ r1 hr hF
          obtain ⟨hF2, he2⟩ := ih _ _ r h hF1
          exact ⟨hF2, he2.trans he1⟩
    | analyze sid' hops =>
      rw [kbRun] at h
      obtain ⟨hF1, he1⟩ := ih _ _ r h ⟨hF.1, hF.2.1, hF.2.2⟩
      exact ⟨hF1, he1⟩
    | semanticLoop sid' hops entries =>
      cases entries with
      | nil => rw [kbRun] at h; cases h; exact ⟨hF, rfl⟩
      | cons entry rest =>
        rw [kbRun] at h
        simp only [] at h
        split at h
        · exact Option.noConfusion h
        · rename_i st1 hr1
          have hst1 : Frozen sid st1 ∧
              (st1.syms sid).analyzed = (st.syms sid).analyzed := by
            revert hr1; split
            · intro hr1; cases hr1; exact ⟨hF, rfl⟩
            · have hSa : Frozen sid
                  (match entry.meta with
                   | some m => updateSyntaxKindFrom st sid' m.syn
                   | none => st) ∧
                  ((match entry.meta with
                    | some m => updateSyntaxKindFrom st sid' m.syn
                    | none => st).syms sid).analyzed =
                    (st.syms sid).analyzed := by
                cases entry.meta
                · exact ⟨hF, rfl⟩
                · exact Frozen_updSym_keep sid (fun q => rfl) (fun q => rfl) hF
              split
              · exact fun hr1 => Option.noConfusion hr1
              · rename_i sb hrb
                have hsb : Frozen sid sb ∧
                    (sb.syms sid).analyzed = (st.syms sid).analyzed := by
                  revert hrb; split
                  · intro hrb
                    rw [Option.map_eq_some'] at hrb
                    obtain ⟨q, hq, hsnd⟩ := hrb
                    rw [← hsnd]
                    obtain ⟨ha, hb⟩ := ih _ _ q hq hSa.1
                    exact ⟨ha, hb.trans hSa.2⟩
                  · intro hrb; cases hrb; exact hSa
                split
                · intro hr1
                  rw [Option.map_eq_some'] at hr1
                  obtain ⟨q, hq, hsnd⟩ := hr1
                  rw [← hsnd]
                  obtain ⟨ha, hb⟩ := ih _ _ q hq hsb.1
                  exact ⟨ha, hb.trans hsb.2⟩
                · intro hr1; cases hr1; exact hsb
          obtain ⟨ha, hb⟩ := ih _ _ r h hst1.1
          exact ⟨ha, hb.trans hst1.2⟩
    | consumesLoop sid' hops items =>
      cases items with
      | nil => rw [kbRun] at h; cases h; exact ⟨hF, rfl⟩
      | cons c rest =>
        rw [kbRun] at h
        simp only [] at h
        split at h
        · exact Option.noConfusion h
        · rename_i res hr
          obtain ⟨hFr, her⟩ := ih _ _ res hr hF
          obtain ⟨hFp, hep⟩ := Frozen_addPair_out res.2 sid' res.1 sid hFr
          obtain ⟨ha, hb⟩ := ih _ _ r h hFp
          exact ⟨ha, hb.trans (hep.trans her)⟩
    | hitsLoop sid' hops groups =>
      cases groups with
      | nil => rw [kbRun] at h; cases h; exact ⟨hF, rfl⟩
      | cons g rest =>
        obtain ⟨pathKind, useGroups⟩ := g
        rw [kbRun] at h
        split at h
        · exact Option.noConfusion h
        · rename_i r1 hr
          obtain ⟨hF1, he1⟩ := ih _ _ r1 hr hF
          obtain ⟨hF2, he2⟩ := ih _ _ r h hF1
          exact ⟨hF2, he2.trans he1⟩
    | useGroupsLoop sid' hops groups =>
      cases groups with
      | nil => rw [kbRun] at h; cases h; exact ⟨hF, rfl⟩
      | cons g rest =>
        obtain ⟨useType, pathLinesArray⟩ := g
        rw [kbRun] at h
        have hbindD := Frozen_bindDefFile st sid' pathLinesArray sid hF
        have hbindC := Frozen_bindDeclFile st sid' pathLinesArray sid hF
        by_cases hd : useType = "defs"
        · rw [if_pos hd] at h
          obtain ⟨ha, hb⟩ := ih _ _ r h hbindD.1
          exact ⟨ha, hb.trans hbindD.2⟩
        · rw [if_neg hd] at h
          by_cases hd2 : useType = "decls"
          · rw [if_pos hd2] at h
            obtain ⟨ha, hb⟩ := ih _ _ r h hbindC.1
            exact ⟨ha, hb.trans hbindC.2⟩
          · rw [if_neg hd2] at h
            by_cases hd3 : useType = "uses"
            · rw [if_pos hd3] at h
              split at h
              · exact Option.noConfusion h
              · rename_i r1 hr
                obtain ⟨hF1, he1⟩ := ih _ _ r1 hr hF
                obtain ⟨hF2, he2⟩ := ih _ _ r h hF1
                exact ⟨hF2, he2.trans he1⟩
            · rw [if_neg hd3] at h
              exact ih _ _ r h hF
    | usesPathsLoop sid' hops paths =>
      cases paths with
      | nil => rw [kbRun] at h; cases h; exact ⟨hF, rfl⟩
      | cons pl rest =>
        rw [kbRun] at h
        split at h
        · exact Option.noConfusion h
        · rename_i r1 hr
          obtain ⟨hF1, he1⟩ := ih _ _ r1 hr hF
          obtain ⟨hF2, he2⟩ := ih _ _ r h hF1
          exact ⟨hF2, he2.trans he1⟩
    | usesLinesLoop sid' hops path lines =>
      cases lines with
      | nil => rw [kbRun] at h; cases h; exact ⟨hF, rfl⟩
      | cons lr rest =>
        rw [kbRun] at h
        simp only [] at h
        split at h
        · exact Option.noConfusion h
        · rename_i st1 hr1
          have hst1 : Frozen sid st1 ∧
              (st1.syms sid).analyzed = (st.syms sid).analyzed := by
            revert hr1; split
            · split
              · exact fun hr1 => Option.noConfusion hr1
              · rename_i res hres
                intro hr1
                cases hr1
                obtain ⟨hFr, her⟩ := ih _ _ res hres hF
                obtain ⟨hFp, hep⟩ :=
                  Frozen_addPair_in res.2 res.1 sid' sid hFr
                exact ⟨hFp, hep.trans her⟩
            · intro hr1; cases hr1; exact ⟨hF, rfl⟩
          obtain ⟨ha, hb⟩ := ih _ _ r h hst1.1
          exact ⟨ha, hb.trans hst1.2⟩

/-- A completed `ensureSymbolAnalysis` call logs its own entry first: the
log grows by `(sid, hops)` followed by whatever the nested work logged. -/
theorem esa_log_head (env : SearchEnv) (fuel : Nat) (sid : Nat) (hops : JSNum)
    (st : KBState) (r : Nat × KBState)
    (h : kbRun env fuel (.esa sid hops) st = some r) :
    ∃ t, r.2.esaLog = st.esaLog ++ (sid, hops) :: t := by
  cases fuel with
  | zero => cases h
  | succ fuel =>
    have base : (pushEsaLog st sid hops).esaLog = st.esaLog ++ [(sid, hops)] :=
      rfl
    have main : KBLe (pushEsaLog st sid hops) r.2 := by
      rw [kbRun] at h
      simp only [] at h
      split at h
      · split at h
        · split at h
          · exact Option.noConfusion h
          · rename_i st2 hr2
            split at h
            · exact Option.noConfusion h
            · rename_i st3 hr3
              cases h
              have le1 : KBLe (pushEsaLog st sid hops)
                  (updSym (pushEsaLog st sid hops) sid
                    (fun q => { q with analyzed := hops.minTwo })) :=
                KBLe_updSym _ _ _
              have le2 : KBLe (updSym (pushEsaLog st sid hops) sid
                  (fun q => { q with analyzed := hops.minTwo })) st2 := by
                revert hr2; split
                · intro hr2
                  rw [Option.map_eq_some'] at hr2
                  obtain ⟨q, hq, hsnd⟩ := hr2
                  rw [← hsnd]; exact kbRun_le env fuel _ _ q hq
                · intro hr2; cases hr2; exact KBLe.rfl _
              have le3 : KBLe st2 st3 := by
                revert hr3; split
                · intro hr3
                  rw [Option.map_eq_some'] at hr3
                  obtain ⟨q, hq, hsnd⟩ := hr3
                  rw [← hsnd]; exact kbRun_le env fuel _ _ q hq
                · intro hr3; cases hr3; exact KBLe.rfl _
              exact (le1.trans le2).trans le3
        · cases h; exact KBLe.rfl _
      · split at h
        · cases h; exact KBLe.rfl _
        · split at h
          · exact Option.noConfusion h
          · rename_i r1 hr
            cases h
            refine (KBLe_of_eqFields rfl rfl rfl).trans
              ((kbRun_le env fuel _ _ r1 hr).trans ?_)
            exact KBLe_of_eqFields rfl rfl rfl
    obtain ⟨t, ht⟩ := main.2.2
    exact ⟨t, by rw [ht, base, List.append_assoc]; rfl⟩

/-- The cascading loop issues an `ensureSymbolAnalysis` with the decremented
hop budget for every member of the edge-set snapshot. -/
theorem esaPropagate_logs (env : SearchEnv) :
    ∀ (others : List Nat) (fuel : Nat) (hops : JSNum) (st : KBState)
      (r : Nat × KBState),
      kbRun env fuel (.esaPropagate others hops) st = some r →
      ∀ o ∈ others, (o, hops) ∈ r.2.esaLog := by
  intro others
  induction others with
  | nil => intro fuel hops st r h o ho; cases ho
  | cons o rest ihl =>
    intro fuel hops st r h o' ho'
    cases fuel with
    | zero => cases h
    | succ fuel =>
      rw [kbRun] at h
      split at h
      · exact Option.noConfusion h
      · rename_i r1 hr
        rcases List.mem_cons.mp ho' with he | hm
        · subst he
          obtain ⟨t, ht⟩ := esa_log_head env fuel o' hops st r1 hr
          have h1 : (o', hops) ∈ r1.2.esaLog := by
            rw [ht]
            exact List.mem_append.mpr (Or.inr (List.mem_cons_self _ _))
          obtain ⟨t2, ht2⟩ := (kbRun_le env fuel _ _ r h).2.2
          rw [ht2]
          exact List.mem_append.mpr (Or.inl h1)
        · exact ihl fuel hops r1.2 r h o' hm

/-- On completion of a fresh analysis, `ensureSymbolAnalysis` stores exactly
the clamped hop value and clears the in-flight flag. -/
theorem esa_completion (env : SearchEnv) (fuel : Nat) (sid : Nat)
    (hops : JSNum) (st : KBState) (r : Nat × KBState)
    (h : kbRun env fuel (.esa sid hops) st = some r)
    (hana : (st.syms sid).analyzed.truthy = false)
    (hfl : (st.syms sid).analyzing = false) :
    (r.2.syms sid).analyzed = hops.minTwo ∧
      (r.2.syms sid).analyzing = false := by
  cases fuel with
  | zero => cases h
  | succ fuel =>
    rw [kbRun] at h
    simp only [] at h
    split at h
    · rename_i htru
      have hcon : (st.syms sid).analyzed.truthy = true := htru
      rw [hana] at hcon
      cases hcon
    · split at h
      · rename_i hfl2
        have hcon : (st.syms sid).analyzing = true := hfl2
        rw [hfl] at hcon
        cases hcon
      · split at h
        · exact Option.noConfusion h
        · rename_i r1 hr
          cases h
          constructor
          · show ((updSym r1.2 sid
                (fun q =>
                  { q with analyzing := false, analyzed := hops.minTwo })).syms
                sid).analyzed = hops.minTwo
            rw [updSym_syms_self]
          · show ((updSym r1.2 sid
                (fun q =>
                  { q with analyzing := false, analyzed := hops.minTwo })).syms
                sid).analyzing = false
            rw [updSym_syms_self]

/-- When a level bump finds both edge sets at or above
`EDGE_SANITY_LIMIT`, cascading is skipped entirely: the call only logs
itself and raises the level. -/
theorem esa_bump_skip (env : SearchEnv) (fuel : Nat) (sid : Nat)
    (hops : JSNum) (st : KBState) (r : Nat × KBState)
    (h : kbRun env fuel (.esa sid hops) st = some r)
    (htru : (st.syms sid).analyzed.truthy = true)
    (hlt : JSNum.lt (st.syms sid).analyzed hops.minTwo = true)
    (hout : EDGE_SANITY_LIMIT ≤ (st.syms sid).outEdges.length)
    (hin : EDGE_SANITY_LIMIT ≤ (st.syms sid).inEdges.length) :
    r.2 = updSym (pushEsaLog st sid hops) sid
      (fun q => { q with analyzed := hops.minTwo }) := by
  cases fuel with
  | zero => cases h
  | succ fuel =>
    rw [kbRun] at h
    simp only [] at h
    split at h
    · split at h
      · have hcond : ¬((updSym (pushEsaLog st sid hops) sid
            (fun q => { q with analyzed := hops.minTwo })).syms
              sid).outEdges.length < EDGE_SANITY_LIMIT := by
          rw [updSym_syms_self]
          exact not_lt.mpr hout
        split at h
        · rename_i hr2
          rw [if_neg hcond] at hr2
          exact Option.noConfusion hr2
        · rename_i st2 hr2
          rw [if_neg hcond] at hr2
          cases hr2
          have hcond2 : ¬((updSym (pushEsaLog st sid hops) sid
              (fun q => { q with analyzed := hops.minTwo })).syms
                sid).inEdges.length < EDGE_SANITY_LIMIT := by
            rw [updSym_syms_self]
            exact not_lt.mpr hin
          split at h
          · rename_i hr3
            rw [if_neg hcond2] at hr3
            exact Option.noConfusion hr3
          · rename_i st3 hr3
            rw [if_neg hcond2] at hr3
            cases hr3
            cases h
            rfl
      · rename_i hnlt
        have hcon : JSNum.lt (st.syms sid).analyzed hops.minTwo = true := hlt
        exact absurd hcon hnlt
    · rename_i hntru
      have hcon : ((pushEsaLog st sid hops).syms sid).analyzed.truthy = true :=
        htru
      exact absurd hcon hntru

/-- When a level bump finds the out-edge set below the sanity limit, every
member of the snapshot receives a cascaded analysis call with the
decremented hop budget. -/
theorem esa_bump_propagates_out (env : SearchEnv) (fuel : Nat) (sid : Nat)
    (hops : JSNum) (st : KBState) (r : Nat × KBState)
    (h : kbRun env fuel (.esa sid hops) st = some r)
    (htru : (st.syms sid).analyzed.truthy = true)
    (hlt : JSNum.lt (st.syms sid).analyzed hops.minTwo = true)
    (hout : (st.syms sid).outEdges.length < EDGE_SANITY_LIMIT) :
    ∀ o ∈ (st.syms sid).outEdges, (o, hops.subOne) ∈ r.2.esaLog := by
  cases fuel with
  | zero => cases h
  | succ fuel =>
    rw [kbRun] at h
    simp only [] at h
    split at h
    · split at h
      · have hcond : ((updSym (pushEsaLog st sid hops) sid
            (fun q => { q with analyzed := hops.minTwo })).syms
              sid).outEdges.length < EDGE_SANITY_LIMIT := by
          rw [updSym_syms_self]
          exact hout
        split at h
        · exact Option.noConfusion h
        · rename_i st2 hr2
          rw [if_pos hcond, Option.map_eq_some'] at hr2
          obtain ⟨q, hq, hsnd⟩ := hr2
          intro o ho
          have ho' : o ∈ ((updSym (pushEsaLog st sid hops) sid
              (fun q => { q with analyzed := hops.minTwo })).syms
                sid).outEdges := by
            rw [updSym_syms_self]
            exact ho
          have hmem : (o, hops.subOne) ∈ q.2.esaLog :=
            esaPropagate_logs env _ fuel hops.subOne _ q hq o ho'
          have hmem2 : (o, hops.subOne) ∈ st2.esaLog := by
            rw [← hsnd]; exact hmem
          split at h
          · exact Option.noConfusion h
          · rename_i st3 hr3
            cases h
            have le3 : KBLe st2 st3 := by
              revert hr3; split
              · intro hr3
                rw [Option.map_eq_some'] at hr3
                obtain ⟨q3, hq3, hsnd3⟩ := hr3
                rw [← hsnd3]; exact kbRun_le env fuel _ _ q3 hq3
              · intro hr3; cases hr3; exact KBLe.rfl _
            obtain ⟨t, ht⟩ := le3.2.2
            rw [ht]
            exact List.mem_append.mpr (Or.inl hmem2)
      · rename_i hnlt
        exact absurd hlt hnlt
    · rename_i hntru
      have hcon : ((pushEsaLog st sid hops).syms sid).analyzed.truthy = true :=
        htru
      exact absurd hcon hntru

/-- When the out-edge set is at or above the limit but the in-edge set is
below it, every in-edge neighbour receives a cascaded call. -/
theorem esa_bump_propagates_in (env : SearchEnv) (fuel : Nat) (sid : Nat)
    (hops : JSNum) (st : KBState) (r : Nat × KBState)
    (h : kbRun env fuel (.esa sid hops) st = some r)
    (htru : (st.syms sid).analyzed.truthy = true)
    (hlt : JSNum.lt (st.syms sid).analyzed hops.minTwo = true)
    (hout : EDGE_SANITY_LIMIT ≤ (st.syms sid).outEdges.length)
    (hin : (st.syms sid).inEdges.length < EDGE_SANITY_LIMIT) :
    ∀ o ∈ (st.syms sid).inEdges, (o, hops.subOne) ∈ r.2.esaLog := by
  cases fuel with
  | zero => cases h
  | succ fuel =>
    rw [kbRun] at h
    simp only [] at h
    split at h
    · split at h
      · have hcond : ¬((updSym (pushEsaLog st sid hops) sid
            (fun q => { q with analyzed := hops.minTwo })).syms
              sid).outEdges.length < EDGE_SANITY_LIMIT := by
          rw [updSym_syms_self]
          exact not_lt.mpr hout
        split at h
        · rename_i hr2
          rw [if_neg hcond] at hr2
          exact Option.noConfusion hr2
        · rename_i st2 hr2
          rw [if_neg hcond] at hr2
          cases hr2
          have hcond2 : ((updSym (pushEsaLog st sid hops) sid
              (fun q => { q with analyzed := hops.minTwo })).syms
                sid).inEdges.length < EDGE_SANITY_LIMIT := by
            rw [updSym_syms_self]
            exact hin
          split at h
          · exact Option.noConfusion h
          · rename_i st3 hr3
            rw [if_pos hcond2, Option.map_eq_some'] at hr3
            obtain ⟨q, hq, hsnd⟩ := hr3
            cases h
            intro o ho
            have ho' : o ∈ ((updSym (pushEsaLog st sid hops) sid
                (fun q => { q with analyzed := hops.minTwo })).syms
                  sid).inEdges := by
              rw [updSym_syms_self]
              exact ho
            have hmem : (o, hops.subOne) ∈ q.2.esaLog :=
              esaPropagate_logs env _ fuel hops.subOne _ q hq o ho'
            rw [← hsnd]
            exact hmem
      · rename_i hnlt
        exact absurd hlt hnlt
    · rename_i hntru
      have hcon : ((pushEsaLog st sid hops).syms sid).analyzed.truthy = true :=
        htru
      exact absurd hcon hntru

/-- A lookup of a raw name whose key is already bound returns the bound
id. -/
theorem lookup_returns_cached (env : SearchEnv) (fuel : Nat)
    (rawName : Option String) (doA : DoAnalyze) (p : Option String)
    (o : LookupOpts) (st : KBState) (r : Nat × KBState) (i : Nat)
    (h : kbRun env fuel (.lookup rawName doA p o) st = some r)
    (hf : alistFind st.symbolsByRawName (normalizeSymbol rawName false) =
      some i) :
    r.1 = i := by
  cases fuel with
  | zero => cases h
  | succ fuel =>
    rw [kbRun] at h
    split at h
    · rename_i sid hf'
      rw [hf'] at hf
      cases hf
      simp only [] at h
      split at h
      · split at h
        · rename_i r1 hr
          cases h
          rfl
        · exact Option.noConfusion h
      · cases h
        rfl
    · rename_i hf'
      rw [hf'] at hf
      cases hf

/-- A completed lookup leaves its key bound to the id it returned. -/
theorem lookup_binds (env : SearchEnv) (fuel : Nat) (rawName : Option String)
    (doA : DoAnalyze) (p : Option String) (o : LookupOpts) (st : KBState)
    (r : Nat × KBState)
    (h : kbRun env fuel (.lookup rawName doA p o) st = some r) :
    alistFind r.2.symbolsByRawName (normalizeSymbol rawName false) =
      some r.1 := by
  cases fuel with
  | zero => cases h
  | succ fuel =>
    rw [kbRun] at h
    split at h
    · rename_i sid hf
      simp only [] at h
      set stP :=
        (if (strTruthy p && !strTruthy (st.syms sid).prettyName) = true then
          updatePrettyNameFrom st sid p
        else st) with hstP
      have hfP : alistFind stP.symbolsByRawName
          (normalizeSymbol rawName false) = some sid := by
        rw [hstP]; split
        · exact hf
        · exact hf
      split at h
      · split at h
        · rename_i r1 hr
          cases h
          exact (kbRun_le env fuel _ _ r1 hr).2.1 _ _ hfP
        · exact Option.noConfusion h
      · cases h
        exact hfP
    · rename_i hf
      simp only [] at h
      have hfC : alistFind (alistSet st.symbolsByRawName
          (normalizeSymbol rawName false) st.nextSymId)
          (normalizeSymbol rawName false) = some st.nextSymId := by
        rw [alistFind_alistSet, if_pos rfl]
      split at h
      · split at h
        · rename_i r1 hr
          cases h
          exact (kbRun_le env fuel _ _ r1 hr).2.1 _ _ hfC
        · exact Option.noConfusion h
      · cases h
        exact hfC

/-- Any completed sequence of public operations only grows the state. -/
theorem runOps_le (env : SearchEnv) :
    ∀ (ops : List (Nat × KBOp)) (st st' : KBState),
      runOps env ops st = some st' → KBLe st st' := by
  intro ops
  induction ops with
  | nil => intro st st' h; cases h; exact KBLe.rfl _
  | cons op rest iho =>
    intro st st' h
    obtain ⟨fuel, op⟩ := op
    cases op with
    | lookup rawName doA p o =>
      rw [runOps] at h
      split at h
      · exact Option.noConfusion h
      · rename_i r hr
        exact (kbRun_le env fuel _ _ r hr).trans (iho _ _ h)
    | analyzeSym rawName hops =>
      rw [runOps] at h
      split at h
      · rename_i sid hf
        split at h
        · exact Option.noConfusion h
        · rename_i r hr
          exact (kbRun_le env fuel _ _ r hr).trans (iho _ _ h)
      · exact iho _ _ h

theorem takeUntilComma_append (l r : List Char) :
    takeUntilComma (l ++ ',' :: r) =
      if ',' ∈ l then takeUntilComma l else l := by
  induction l with
  | nil => simp [takeUntilComma]
  | cons c l' ih =>
    by_cases hc : c = ','
    · subst hc
      simp [takeUntilComma]
    · rw [List.cons_append]
      rw [show takeUntilComma (c :: (l' ++ ',' :: r)) =
          c :: takeUntilComma (l' ++ ',' :: r) from by
        simp [takeUntilComma, hc]]
      rw [ih]
      by_cases hm : ',' ∈ l'
      · rw [if_pos hm, if_pos (List.mem_cons.mpr (Or.inr hm))]
        simp [takeUntilComma, hc]
      · have hnc : ¬(',' ∈ c :: l') := by
          intro hcc
          rcases List.mem_cons.mp hcc with h1 | h1
          · exact hc h1.symm
          · exact hm h1
        rw [if_neg hm, if_neg hnc]

theorem String.mk_toList (s : String) : String.mk s.toList = s := rfl

/-- The searchfox comma quirk: a comma-delimited raw name normalizes to its
first comma-separated component (for a non-empty first component, the same
key that component normalizes to by itself). -/
theorem normalizeSymbol_comma (A B : String) (hA : ¬A = "") :
    normalizeSymbol (some (A ++ "," ++ B)) false =
      normalizeSymbol (some A) false := by
  have hdata : (A ++ "," ++ B).toList = A.toList ++ ',' :: B.toList := by
    show (A ++ "," ++ B).data = A.data ++ ',' :: B.data
    rw [String.data_append, String.data_append, List.append_assoc]
    rfl
  have hne : ¬(A ++ "," ++ B) = "" := by
    intro he
    have hd : (A ++ "," ++ B).toList = [] := by rw [he]; rfl
    rw [hdata] at hd
    rcases List.append_eq_nil.mp hd with ⟨_, h2⟩
    cases h2
  have hcontains : ((A ++ "," ++ B).toList.contains ',') = true := by
    rw [hdata]
    have : ',' ∈ A.toList ++ ',' :: B.toList :=
      List.mem_append.mpr (Or.inr (List.mem_cons_self _ _))
    exact List.elem_eq_true_of_mem this
  rw [normalizeSymbol, normalizeSymbol]
  simp only [if_neg hne, if_neg hA, hcontains, if_true, hdata,
    takeUntilComma_append]
  by_cases hm : ',' ∈ A.toList
  · have hc2 : (A.toList.contains ',') = true := List.elem_eq_true_of_mem hm
    rw [if_pos hm, hc2]
    simp
  · have hc2 : (A.toList.contains ',') = false := by
      rcases hc : A.toList.contains ',' with _ | _
      · rfl
      · exact absurd (List.mem_of_elem_eq_true hc) hm
    rw [if_neg hm, hc2]
    simp [String.mk_toList]

/-- Any completed sequence of public operations starting from a well-formed
state preserves the well-formedness package. -/
theorem runOps_inv (env : SearchEnv) :
    ∀ (ops : List (Nat × KBOp)) (st st' : KBState),
      runOps env ops st = some st' → KBInv st → KBInv st' := by
  intro ops
  induction ops with
  | nil => intro st st' h hi; cases h; exact hi
  | cons op rest iho =>
    intro st st' h hi
    obtain ⟨fuel, op⟩ := op
    cases op with
    | lookup rawName doA p o =>
      rw [runOps] at h
      split at h
      · exact Option.noConfusion h
      · rename_i r hr
        exact iho _ _ h (kbRun_inv env fuel _ _ r hr trivial hi)
    | analyzeSym rawName hops =>
      rw [runOps] at h
      split at h
      · rename_i sid hf
        split at h
        · exact Option.noConfusion h
        · rename_i r hr
          exact iho _ _ h (kbRun_inv env fuel _ _ r hr (hi.1 _ _ hf) hi)
      · exact iho _ _ h hi

/-! ## Claim theorems -/

/-- C1: for every raw symbol name, any two `lookupRawSymbol` calls on the
same `KnowledgeBase` — with any completed public operations in between —
return the same `SymbolInfo` (id); and a comma-delimited raw name is keyed
by its first comma-separated component, so (for a non-empty raw name `A`)
lookups of `A ++ "," ++ B` and of `A` yield the same `SymbolInfo`. -/
theorem c1_lookup_identity_unique :
    (∀ (env : SearchEnv) (fuel1 fuel2 : Nat) (ops : List (Nat × KBOp))
       (st st2 : KBState) (r1 r2 : Nat × KBState) (R : String)
       (dA dA' : DoAnalyze) (p p' : Option String) (o o' : LookupOpts),
       kbRun env fuel1 (.lookup (some R) dA p o) st = some r1 →
       runOps env ops r1.2 = some st2 →
       kbRun env fuel2 (.lookup (some R) dA' p' o') st2 = some r2 →
       r2.1 = r1.1) ∧
    (∀ A B : String, ¬A = "" →
       normalizeSymbol (some (A ++ "," ++ B)) false =
         normalizeSymbol (some A) false) ∧
    (∀ (env : SearchEnv) (fuel1 fuel2 : Nat) (ops : List (Nat × KBOp))
       (st st2 : KBState) (r1 r2 : Nat × KBState) (A B : String)
       (dA dA' : DoAnalyze) (p p' : Option String) (o o' : LookupOpts),
       ¬A = "" →
       kbRun env fuel1 (.lookup (some A) dA p o) st = some r1 →
       runOps env ops r1.2 = some st2 →
       kbRun env fuel2 (.lookup (some (A ++ "," ++ B)) dA' p' o') st2 =
         some r2 →
       r2.1 = r1.1) := by
  refine ⟨?_, normalizeSymbol_comma, ?_⟩
  · intro env fuel1 fuel2 ops st st2 r1 r2 R dA dA' p p' o o' h1 h2 h3
    have hb := lookup_binds env fuel1 _ _ _ _ st r1 h1
    have hb2 := (runOps_le env ops _ _ h2).2.1 _ _ hb
    exact lookup_returns_cached env fuel2 _ _ _ _ st2 r2 r1.1 h3 hb2
  · intro env fuel1 fuel2 ops st st2 r1 r2 A B dA dA' p p' o o' hA h1 h2 h3
    have hb := lookup_binds env fuel1 _ _ _ _ st r1 h1
    have hb2 := (runOps_le env ops _ _ h2).2.1 _ _ hb
    rw [← normalizeSymbol_comma A B hA] at hb2
    exact lookup_returns_cached env fuel2 _ _ _ _ st2 r2 r1.1 h3 hb2

/-- Witness for C1: looking up `"A"`, then (after an unrelated lookup of
`"Z"`) looking up `"A,B"`, returns the same symbol id. -/
theorem c1_witness :
    kbRun envEmpty 5 (.lookup (some "A") .undef none {}) initKB =
      some c1r1 ∧
    runOps envEmpty [(5, .lookup (some "Z") .undef none {})] c1r1.2 =
      some c1st2 ∧
    kbRun envEmpty 5 (.lookup (some "A,B") (.bool true) none {}) c1st2 =
      some c1r2 ∧
    c1r2.1 = c1r1.1 := by
  refine ⟨rfl, rfl, rfl, ?_⟩
  exact c1_lookup_identity_unique.2.2 envEmpty 5 5
    [(5, .lookup (some "Z") .undef none {})] initKB c1st2 c1r1 c1r2 "A" "B"
    .undef (.bool true) none none {} {} (by decide) rfl rfl rfl

/-- C2 (amended): with truthy `doAnalyze`, analysis is always scheduled, but
the hop budget rule (`true` means budget 1, a number is itself the budget)
is applied only in the branch that creates a new symbol; in the cached
branch `ensureSymbolAnalysis` is called with no hop argument at all
(`undefined`). -/
theorem c2_amended :
    (∀ (env : SearchEnv) (fuel : Nat) (st : KBState) (r : Nat × KBState)
       (rawName : Option String) (doA : DoAnalyze) (p : Option String)
       (o : LookupOpts) (sid : Nat),
       kbRun env fuel (.lookup rawName doA p o) st = some r →
       doA.truthy = true →
       alistFind st.symbolsByRawName (normalizeSymbol rawName false) =
         some sid →
       ∃ t, r.2.esaLog = st.esaLog ++ (sid, JSNum.undef) :: t) ∧
    (∀ (env : SearchEnv) (fuel : Nat) (st : KBState) (r : Nat × KBState)
       (rawName : Option String) (doA : DoAnalyze) (p : Option String)
       (o : LookupOpts),
       kbRun env fuel (.lookup rawName doA p o) st = some r →
       doA.truthy = true →
       alistFind st.symbolsByRawName (normalizeSymbol rawName false) = none →
       ∃ t, r.2.esaLog = st.esaLog ++
         (st.nextSymId,
          if doA = .bool true then JSNum.int 1 else doA.toHops) :: t) := by
  constructor
  · intro env fuel st r rawName doA p o sid h hda hf
    cases fuel with
    | zero => cases h
    | succ fuel =>
      rw [kbRun] at h
      rw [hf] at h
      simp only [] at h
      rw [if_pos hda] at h
      split at h
      · rename_i r1 hr
        cases h
        obtain ⟨t, ht⟩ := esa_log_head env fuel sid JSNum.undef _ r1 hr
        refine ⟨t, ?_⟩
        rw [ht]
        have he : (if (strTruthy p && !strTruthy (st.syms sid).prettyName)
            = true then updatePrettyNameFrom st sid p else st).esaLog =
            st.esaLog := by
          split <;> rfl
        rw [he]
      · exact Option.noConfusion h
  · intro env fuel st r rawName doA p o h hda hf
    cases fuel with
    | zero => cases h
    | succ fuel =>
      rw [kbRun] at h
      rw [hf] at h
      simp only [] at h
      rw [if_pos hda] at h
      split at h
      · rename_i r1 hr
        cases h
        obtain ⟨t, ht⟩ := esa_log_head env fuel _ _ _ r1 hr
        exact ⟨t, ht⟩
      · exact Option.noConfusion h

/-- Witness for C2 (amended): a cached lookup of `"A"` with
`doAnalyze = true` schedules analysis with the `undefined` budget, while a
fresh lookup of `"B"` with `doAnalyze = true` schedules it with budget 1. -/
theorem c2_witness :
    (kbRun envEmpty 5 (.lookup (some "A") .undef none {}) initKB =
       some c2ra ∧
     kbRun envEmpty 5 (.lookup (some "A") (.bool true) none {}) c2ra.2 =
       some c2rb ∧
     ∃ t, c2rb.2.esaLog = c2ra.2.esaLog ++ (0, JSNum.undef) :: t) ∧
    (kbRun envEmpty 5 (.lookup (some "B") (.bool true) none {}) initKB =
       some c2rc ∧
     ∃ t, c2rc.2.esaLog = initKB.esaLog ++ (0, JSNum.int 1) :: t) := by
  refine ⟨⟨rfl, rfl, ?_⟩, ⟨rfl, ?_⟩⟩
  · exact c2_amended.1 envEmpty 5 c2ra.2 c2rb (some "A") (.bool true) none {}
      0 rfl (by decide) (by decide)
  · exact c2_amended.2 envEmpty 5 initKB c2rc (some "B") (.bool true) none {}
      rfl (by decide) (by decide)

/-- Counterexample to C2 as stated: after a plain lookup caches `"A"`
unanalyzed, a cached lookup with `doAnalyze = true` schedules analysis with
the `undefined` budget — the budget-1 rule for `doAnalyze === true` is never
applied in the cached branch. -/
theorem c2_counterexample :
    kbRun envEmpty 5 (.lookup (some "A") .undef none {}) initKB = some c2ra ∧
    kbRun envEmpty 5 (.lookup (some "A") (.bool true) none {}) c2ra.2 =
      some c2rb ∧
    c2rb.2.esaLog = [(0, JSNum.undef)] ∧
    ¬(0, JSNum.int 1) ∈ c2rb.2.esaLog := by
  refine ⟨rfl, rfl, by decide, by decide⟩

/-- C3: evaluation at the failing input — after a plain lookup of `"A"`,
two `doAnalyze = true` lookups each trigger a full backend search, because
the first analysis completes with `analyzed = Math.min(2, undefined) = NaN`,
which is falsy.  The claim (and the code's own doc comment, "performing a
search (at most once)") say the search backend is contacted at most once per
symbol per `KnowledgeBase` lifetime; here it is contacted twice. -/
theorem c3_two_searches :
    (runOps envEmpty
      [(9, .lookup (some "A") .undef none {}),
       (9, .lookup (some "A") (.bool true) none {}),
       (9, .lookup (some "A") (.bool true) none {})] initKB).map
      KBState.searchLog = some [some "A", some "A"] := by
  decide

/-- C4: edge bookkeeping is always mirrored — after any completed
interpreter call on a well-formed state, and in particular after any
sequence of public operations from the initial `KnowledgeBase`, symbol `b`
is in `a`'s `outEdges` exactly when `a` is in `b`'s `inEdges`. -/
theorem c4_edge_mirroring :
    (∀ (env : SearchEnv) (fuel : Nat) (c : KBCall) (st : KBState)
       (r : Nat × KBState),
       kbRun env fuel c st = some r → ValidCall c st → KBInv st →
       ∀ a b, b ∈ (r.2.syms a).outEdges ↔ a ∈ (r.2.syms b).inEdges) ∧
    (∀ (env : SearchEnv) (ops : List (Nat × KBOp)) (st' : KBState),
       runOps env ops initKB = some st' →
       ∀ a b, b ∈ (st'.syms a).outEdges ↔ a ∈ (st'.syms b).inEdges) := by
  constructor
  · intro env fuel c st r h hv hi
    exact (kbRun_inv env fuel c st r h hv hi).2.2.2.2.1
  · intro env ops st' h
    exact (runOps_inv env ops initKB st' h initKB_inv).2.2.2.2.1

/-- Witness for C4: analyzing `"A"` against a backend where it consumes
`"B"` records the out-edge `0 → 1`, and the mirrored in-edge is present. -/
theorem c4_witness :
    runOps envC [(9, .lookup (some "A") (.bool true) none {})] initKB =
      some c4st ∧
    (1 ∈ (c4st.syms 0).outEdges ↔ 0 ∈ (c4st.syms 1).inEdges) ∧
    1 ∈ (c4st.syms 0).outEdges := by
  refine ⟨rfl, ?_, by decide⟩
  exact c4_edge_mirroring.2 envC
    [(9, .lookup (some "A") (.bool true) none {})] c4st rfl 0 1

/-- C5: analysis depth is clamped to two hops — no symbol reachable by any
sequence of public operations ever carries an `analyzed` level above 2, and
a completed fresh analysis stores exactly `Math.min(2, analyzeHops)`. -/
theorem c5_hop_clamp :
    (∀ (env : SearchEnv) (ops : List (Nat × KBOp)) (st' : KBState),
       runOps env ops initKB = some st' →
       ∀ s, JSNum.gt (st'.syms s).analyzed (.int 2) = false) ∧
    (∀ (env : SearchEnv) (fuel : Nat) (sid : Nat) (hops : JSNum)
       (st : KBState) (r : Nat × KBState),
       kbRun env fuel (.esa sid hops) st = some r →
       (st.syms sid).analyzed.truthy = false →
       (st.syms sid).analyzing = false →
       (r.2.syms sid).analyzed = hops.minTwo) := by
  constructor
  · intro env ops st' h s
    exact (runOps_inv env ops initKB st' h initKB_inv).2.2.2.2.2 s
  · intro env fuel sid hops st r h h1 h2
    exact (esa_completion env fuel sid hops st r h h1 h2).1

/-- Witness for C5: re-analyzing the cached, unanalyzed symbol of `stAUn`
with a hop budget of 10 stores the clamped level 2. -/
theorem c5_witness :
    kbRun envEmpty 9 (.esa 0 (.int 10)) stAUn = some c5r ∧
    (c5r.2.syms 0).analyzed = JSNum.int 2 := by
  refine ⟨rfl, ?_⟩
  have h := c5_hop_clamp.2 envEmpty 9 0 (.int 10) stAUn c5r rfl (by decide)
    (by decide)
  exact h.trans (by decide)

/-- C6 (amended): on a level bump, analysis propagates to the neighbors on
an edge list only when that list's size is strictly below the sanity limit
of 32 (first: out-edges; second: in-edges when the out list is at or over
the limit); when both lists are at or over the limit the level is still
bumped but nothing is propagated. -/
theorem c6_amended :
    (∀ (env : SearchEnv) (fuel : Nat) (sid : Nat) (hops : JSNum)
       (st : KBState) (r : Nat × KBState),
       kbRun env fuel (.esa sid hops) st = some r →
       (st.syms sid).analyzed.truthy = true →
       JSNum.lt (st.syms sid).analyzed hops.minTwo = true →
       (st.syms sid).outEdges.length < EDGE_SANITY_LIMIT →
       ∀ o ∈ (st.syms sid).outEdges, (o, hops.subOne) ∈ r.2.esaLog) ∧
    (∀ (env : SearchEnv) (fuel : Nat) (sid : Nat) (hops : JSNum)
       (st : KBState) (r : Nat × KBState),
       kbRun env fuel (.esa sid hops) st = some r →
       (st.syms sid).analyzed.truthy = true →
       JSNum.lt (st.syms sid).analyzed hops.minTwo = true →
       EDGE_SANITY_LIMIT ≤ (st.syms sid).outEdges.length →
       (st.syms sid).inEdges.length < EDGE_SANITY_LIMIT →
       ∀ o ∈ (st.syms sid).inEdges, (o, hops.subOne) ∈ r.2.esaLog) ∧
    (∀ (env : SearchEnv) (fuel : Nat) (sid : Nat) (hops : JSNum)
       (st : KBState) (r : Nat × KBState),
       kbRun env fuel (.esa sid hops) st = some r →
       (st.syms sid).analyzed.truthy = true →
       JSNum.lt (st.syms sid).analyzed hops.minTwo = true →
       EDGE_SANITY_LIMIT ≤ (st.syms sid).outEdges.length →
       EDGE_SANITY_LIMIT ≤ (st.syms sid).inEdges.length →
       r.2 = updSym (pushEsaLog st sid hops) sid
         (fun q => { q with analyzed := hops.minTwo })) :=
  ⟨esa_bump_propagates_out, esa_bump_propagates_in, esa_bump_skip⟩

/-- Witness for C6 (amended): with two out-edges propagation reaches both
neighbors; with the out list at the limit but one in-edge, the in-neighbor
is reached; with both lists at the limit the state only gets the bumped
level. -/
theorem c6_witness :
    (kbRun envEmpty 20 (.esa 0 (.int 2)) stEdge2 = some c6wa ∧
     (1, JSNum.int 1) ∈ c6wa.2.esaLog ∧ (2, JSNum.int 1) ∈ c6wa.2.esaLog) ∧
    (kbRun envEmpty 20 (.esa 0 (.int 2)) stIn32 = some c6wb ∧
     (1, JSNum.int 1) ∈ c6wb.2.esaLog) ∧
    (kbRun envEmpty 1 (.esa 0 (.int 2)) stBoth32 = some c6wc ∧
     c6wc.2 = updSym (pushEsaLog stBoth32 0 (.int 2)) 0
       (fun q => { q with analyzed := JSNum.minTwo (.int 2) })) := by
  refine ⟨⟨rfl, ?_, ?_⟩, ⟨rfl, ?_⟩, ⟨rfl, ?_⟩⟩
  · exact c6_amended.1 envEmpty 20 0 (.int 2) stEdge2 c6wa rfl (by decide)
      (by decide) (by decide) 1 (by decide)
  · exact c6_amended.1 envEmpty 20 0 (.int 2) stEdge2 c6wa rfl (by decide)
      (by decide) (by decide) 2 (by decide)
  · exact c6_amended.2.1 envEmpty 20 0 (.int 2) stIn32 c6wb rfl (by decide)
      (by decide) (by decide) (by decide) 1 (by decide)
  · exact c6_amended.2.2 envEmpty 1 0 (.int 2) stBoth32 c6wc rfl (by decide)
      (by decide) (by decide) (by decide)

/-- Counterexample to C6 as stated: the spec says propagation happens when
the edge list size is "not above" 32, i.e. including exactly 32, but with
exactly 32 out-edges (and the level genuinely bumping from 1 to 2) the run
logs no propagation to any neighbor. -/
theorem c6_counterexample :
    (stEdge32.syms 0).outEdges.length = EDGE_SANITY_LIMIT ∧
    (stEdge32.syms 0).analyzed.truthy = true ∧
    JSNum.lt (stEdge32.syms 0).analyzed (JSNum.minTwo (.int 2)) = true ∧
    kbRun envEmpty 40 (.esa 0 (.int 2)) stEdge32 = some c6r ∧
    c6r.2.esaLog = [(0, JSNum.int 2)] ∧
    (c6r.2.syms 0).analyzed = JSNum.int 2 ∧
    ∀ o ∈ (stEdge32.syms 0).outEdges, (o, JSNum.int 1) ∉ c6r.2.esaLog := by
  refine ⟨by decide, by decide, by decide, rfl, by decide, by decide,
    by decide⟩

/-! ## Doodler loop lemmas -/

theorem countEnqueues_append (a b : List DoodleEvent) (s : Nat) :
    countEnqueues (a ++ b) s = countEnqueues a s + countEnqueues b s := by
  simp [countEnqueues, List.filter_append]

theorem countEnqueues_edgeEvent (g : DoodleGraph) (a b s : Nat) :
    countEnqueues [edgeEvent g a b] s = 0 := by
  rw [edgeEvent]; split <;> rfl

theorem countEnqueues_style (a s : Nat) :
    countEnqueues [DoodleEvent.style a] s = 0 := rfl

theorem countEnqueues_enqueue (t s : Nat) :
    countEnqueues [DoodleEvent.enqueue t] s = if t = s then 1 else 0 := by
  by_cases h : t = s
  · subst h
    rw [if_pos rfl]
    simp [countEnqueues]
  · rw [if_neg h]
    simp [countEnqueues, h]

theorem countEnqueues_map_edgeEvent (g : DoodleGraph) (cur : Nat)
    (ls : List Nat) (s : Nat) :
    countEnqueues (ls.map (edgeEvent g cur)) s = 0 := by
  induction ls with
  | nil => rfl
  | cons x xs ih =>
    have hx : (x :: xs).map (edgeEvent g cur) =
        [edgeEvent g cur x] ++ xs.map (edgeEvent g cur) := rfl
    rw [hx, countEnqueues_append, ih, countEnqueues_edgeEvent]

theorem traverseCalls_events_mono (g : DoodleGraph) (cur : Nat) :
    ∀ (calls queue cons : List Nat) (evs : List DoodleEvent),
      ∃ t, (traverseCalls g cur calls queue cons evs).2.2 = evs ++ t := by
  intro calls
  induction calls with
  | nil =>
    intro queue cons evs
    exact ⟨[], (List.append_nil evs).symm⟩
  | cons next rest ih =>
    intro queue cons evs
    rw [traverseCalls]
    split
    · obtain ⟨t, ht⟩ := ih queue cons (evs ++ [edgeEvent g cur next])
      exact ⟨[edgeEvent g cur next] ++ t, by rw [ht, List.append_assoc]⟩
    · obtain ⟨t, ht⟩ := ih (queue ++ [next]) (cons ++ [next])
        (evs ++ [edgeEvent g cur next] ++ [DoodleEvent.enqueue next])
      refine ⟨[edgeEvent g cur next] ++ [DoodleEvent.enqueue next] ++ t, ?_⟩
      rw [ht]
      simp [List.append_assoc]

theorem traverseCalls_edges (g : DoodleGraph) (cur : Nat) :
    ∀ (calls queue cons : List Nat) (evs : List DoodleEvent),
      ∀ next ∈ calls,
        edgeEvent g cur next ∈ (traverseCalls g cur calls queue cons evs).2.2 := by
  intro calls
  induction calls with
  | nil => intro queue cons evs next hn; cases hn
  | cons c rest ih =>
    intro queue cons evs next hn
    rw [traverseCalls]
    rcases List.mem_cons.mp hn with he | hr
    · subst he
      split
      · obtain ⟨t, ht⟩ := traverseCalls_events_mono g cur rest queue cons
          (evs ++ [edgeEvent g cur next])
        rw [ht]
        exact List.mem_append_left _ (List.mem_append_right _ (List.mem_singleton.mpr rfl))
      · obtain ⟨t, ht⟩ := traverseCalls_events_mono g cur rest (queue ++ [next])
          (cons ++ [next])
          (evs ++ [edgeEvent g cur next] ++ [DoodleEvent.enqueue next])
        rw [ht]
        refine List.mem_append_left _ ?_
        exact List.mem_append_left _ (List.mem_append_right _ (List.mem_singleton.mpr rfl))
    · split
      · exact ih queue cons _ next hr
      · exact ih (queue ++ [c]) (cons ++ [c]) _ next hr

theorem traverseCalls_count (g : DoodleGraph) (cur : Nat) :
    ∀ (calls queue cons : List Nat) (evs : List DoodleEvent) (s : Nat),
      countEnqueues (traverseCalls g cur calls queue cons evs).2.2 s +
        (if (traverseCalls g cur calls queue cons evs).2.1.contains s = true
          then 0 else 1) ≤
      countEnqueues evs s + (if cons.contains s = true then 0 else 1) := by
  intro calls
  induction calls with
  | nil => intro queue cons evs s; exact Nat.le_refl _
  | cons next rest ih =>
    intro queue cons evs s
    rw [traverseCalls]
    split
    · have h := ih queue cons (evs ++ [edgeEvent g cur next]) s
      rw [countEnqueues_append, countEnqueues_edgeEvent] at h
      exact h
    · rename_i hc
      have h := ih (queue ++ [next]) (cons ++ [next])
        (evs ++ [edgeEvent g cur next] ++ [DoodleEvent.enqueue next]) s
      rw [countEnqueues_append, countEnqueues_append,
        countEnqueues_edgeEvent] at h
      by_cases hs : next = s
      · subst hs
        have he1 : countEnqueues [DoodleEvent.enqueue next] next = 1 := by
          simp [countEnqueues]
        have hcs : cons.contains next = false := Bool.eq_false_iff.mpr hc
        have hcs2 : (cons ++ [next]).contains next = true := by simp
        rw [he1, hcs2, if_pos (rfl : (true : Bool) = true)] at h
        rw [hcs, if_neg (by simp : ¬(false : Bool) = true)]
        omega
      · have he0 : countEnqueues [DoodleEvent.enqueue next] s = 0 := by
          simp [countEnqueues, hs]
        have hcs2 : (cons ++ [next]).contains s = cons.contains s := by
          by_cases hm : cons.contains s = true
          · rw [hm]
            simp
            left
            simpa using hm
          · rw [Bool.eq_false_iff.mpr hm]
            rw [Bool.eq_false_iff]
            intro hx
            have hx2 := by simpa using hx
            rcases hx2 with h1 | h2
            · exact hm (by simpa using h1)
            · exact hs h2.symm
        rw [he0, hcs2] at h
        omega

theorem traverseCalls_considered_mono (g : DoodleGraph) (cur : Nat) :
    ∀ (calls queue cons : List Nat) (evs : List DoodleEvent) (s : Nat),
      cons.contains s = true →
      (traverseCalls g cur calls queue cons evs).2.1.contains s = true := by
  intro calls
  induction calls with
  | nil => intro queue cons evs s h; exact h
  | cons next rest ih =>
    intro queue cons evs s h
    rw [traverseCalls]
    split
    · exact ih queue cons _ s h
    · refine ih (queue ++ [next]) (cons ++ [next]) _ s ?_
      simp
      left
      simpa using h

theorem doodleLoop_count (g : DoodleGraph) :
    ∀ (fuel : Nat) (queue cons : List Nat) (evs final : List DoodleEvent),
      doodleLoop g fuel queue cons evs = some final →
      ∀ s, countEnqueues final s ≤
        countEnqueues evs s + (if cons.contains s = true then 0 else 1) := by
  intro fuel
  induction fuel with
  | zero => intro queue cons evs final h; cases h
  | succ fuel ih =>
    intro queue cons evs final h s
    cases queue with
    | nil =>
      rw [doodleLoop] at h
      cases h
      exact Nat.le_add_right _ _
    | cons cur rest =>
      rw [doodleLoop] at h
      simp only [] at h
      split at h
      · have hb := ih rest cons (evs ++ [DoodleEvent.style cur]) final h s
        rw [countEnqueues_append, countEnqueues_style] at hb
        exact hb
      · have hb := ih _ _ _ final h s
        rw [countEnqueues_append, countEnqueues_map_edgeEvent] at hb
        have ht := traverseCalls_count g cur (inModuleCalls g cur) rest cons evs s
        omega

theorem doodleLoop_events_mono (g : DoodleGraph) :
    ∀ (fuel : Nat) (queue cons : List Nat) (evs final : List DoodleEvent),
      doodleLoop g fuel queue cons evs = some final →
      ∀ e ∈ evs, e ∈ final := by
  intro fuel
  induction fuel with
  | zero => intro queue cons evs final h; cases h
  | succ fuel ih =>
    intro queue cons evs final h e he
    cases queue with
    | nil => rw [doodleLoop] at h; cases h; exact he
    | cons cur rest =>
      rw [doodleLoop] at h
      simp only [] at h
      split at h
      · exact ih rest cons _ final h e (List.mem_append_left _ he)
      · refine ih _ _ _ final h e ?_
        refine List.mem_append_left _ ?_
        obtain ⟨t, ht⟩ := traverseCalls_events_mono g cur
          (inModuleCalls g cur) rest cons evs
        rw [ht]
        exact List.mem_append_left _ he

/-- C7 (amended): in `doodleCalls`, visited-set membership bounds worklist
insertions — every non-root symbol is enqueued at most once — but the root
symbol is pushed initially without being entered into `considered`, so it
can be re-enqueued once more when a call edge reaches it (bound 2, not 1). -/
theorem c7_amended :
    (∀ (g : DoodleGraph) (fuel : Nat) (events : List DoodleEvent),
       doodleCalls g fuel = some events →
       ∀ s, ¬s = g.root → countEnqueues events s ≤ 1) ∧
    (∀ (g : DoodleGraph) (fuel : Nat) (events : List DoodleEvent),
       doodleCalls g fuel = some events →
       countEnqueues events g.root ≤ 2) := by
  constructor
  · intro g fuel events h s hs
    have hb := doodleLoop_count g fuel [g.root] [] [DoodleEvent.enqueue g.root]
      events h s
    have hrs : ¬g.root = s := fun he => hs he.symm
    have he : countEnqueues [DoodleEvent.enqueue g.root] s = 0 := by
      simp [countEnqueues, hrs]
    rw [he] at hb
    simpa using hb
  · intro g fuel events h
    have hb := doodleLoop_count g fuel [g.root] [] [DoodleEvent.enqueue g.root]
      events h g.root
    have he : countEnqueues [DoodleEvent.enqueue g.root] g.root = 1 := by
      simp [countEnqueues]
    rw [he] at hb
    simpa using hb

/-- Witness for C7 (amended): in the `gSmall` doodle, the non-root symbol 1
is enqueued at most once and the root at most twice. -/
theorem c7_witness :
    doodleCalls gSmall 9 = some c7evs ∧
    countEnqueues c7evs 1 ≤ 1 ∧ countEnqueues c7evs gSmall.root ≤ 2 := by
  refine ⟨rfl, ?_, ?_⟩
  · exact c7_amended.1 gSmall 9 c7evs rfl 1 (by decide)
  · exact c7_amended.2 gSmall 9 c7evs rfl

/-- Counterexample to C7 as stated ("every symbol — including the root — is
enqueued at most once"): on the self-loop graph the root is enqueued twice,
because the initial push never enters the root into the visited set. -/
theorem c7_counterexample :
    doodleCalls gSelfLoop 9 =
      some [DoodleEvent.enqueue 0, DoodleEvent.edge 0 0,
        DoodleEvent.enqueue 0, DoodleEvent.edge 0 0] ∧
    gSelfLoop.root = 0 ∧
    countEnqueues [DoodleEvent.enqueue 0, DoodleEvent.edge 0 0,
      DoodleEvent.enqueue 0, DoodleEvent.edge 0 0] 0 = 2 := by
  refine ⟨by decide, rfl, by decide⟩

/-- C8: the branching cutoff is `MAX_CALL_BRANCHING = 12`; a visited symbol
whose in-scope call count exceeds 12 contributes exactly a red style marker
— the loop continues with the worklist, visited set and events otherwise
untouched (none of its callees is drawn or enqueued) — while a symbol at or
under the cutoff is traversed normally. -/
theorem c8_branching_cutoff :
    MAX_CALL_BRANCHING = 12 ∧
    (∀ (g : DoodleGraph) (fuel : Nat) (cur : Nat) (rest cons : List Nat)
       (evs final : List DoodleEvent),
       MAX_CALL_BRANCHING < (inModuleCalls g cur).length →
       doodleLoop g (fuel + 1) (cur :: rest) cons evs = some final →
       doodleLoop g fuel rest cons (evs ++ [DoodleEvent.style cur]) =
         some final) ∧
    (∀ (g : DoodleGraph) (fuel : Nat) (cur : Nat) (rest cons : List Nat)
       (evs final : List DoodleEvent),
       (inModuleCalls g cur).length ≤ MAX_CALL_BRANCHING →
       doodleLoop g (fuel + 1) (cur :: rest) cons evs = some final →
       doodleLoop g fuel
         (traverseCalls g cur (inModuleCalls g cur) rest cons evs).1
         (traverseCalls g cur (inModuleCalls g cur) rest cons evs).2.1
         ((traverseCalls g cur (inModuleCalls g cur) rest cons evs).2.2 ++
           (leafIPCCalls g cur).map (edgeEvent g cur)) = some final) := by
  refine ⟨rfl, ?_, ?_⟩
  · intro g fuel cur rest cons evs final hgt h
    rw [doodleLoop] at h
    simp only [] at h
    rw [if_pos hgt] at h
    exact h
  · intro g fuel cur rest cons evs final hle h
    rw [doodleLoop] at h
    simp only [] at h
    rw [if_neg (Nat.not_lt.mpr hle)] at h
    exact h

/-- Witness for C8: the 13-callee root of `gBranch13` bails to a style-only
step, while the 2-callee root of `gSmall` is traversed normally. -/
theorem c8_witness :
    doodleCalls gBranch13 5 = some c8bEvs ∧
    MAX_CALL_BRANCHING < (inModuleCalls gBranch13 0).length ∧
    doodleLoop gBranch13 4 [] []
      ([DoodleEvent.enqueue 0] ++ [DoodleEvent.style 0]) = some c8bEvs ∧
    doodleLoop gSmall 8
      (traverseCalls gSmall 0 (inModuleCalls gSmall 0) [] []
        [DoodleEvent.enqueue 0]).1
      (traverseCalls gSmall 0 (inModuleCalls gSmall 0) [] []
        [DoodleEvent.enqueue 0]).2.1
      ((traverseCalls gSmall 0 (inModuleCalls gSmall 0) [] []
        [DoodleEvent.enqueue 0]).2.2 ++
        (leafIPCCalls gSmall 0).map (edgeEvent gSmall 0)) = some c8sEvs := by
  refine ⟨rfl, by decide, ?_, ?_⟩
  · exact c8_branching_cutoff.2.1 gBranch13 4 0 [] [] [DoodleEvent.enqueue 0]
      c8bEvs (by decide) rfl
  · exact c8_branching_cutoff.2.2 gSmall 8 0 [] [] [DoodleEvent.enqueue 0]
      c8sEvs (by decide) rfl

/-- C9 (amended): for a visited symbol at or under the branching cutoff,
every discovered edge — in-scope calls and generated-IPC leaf pass-throughs
alike — is reflected into the final event trace via `ensureEdge`; but a
symbol over the cutoff contributes only a style marker, so its discovered
edges are not drawn by that visit. -/
theorem c9_amended :
    (∀ (g : DoodleGraph) (fuel : Nat) (cur : Nat) (rest cons : List Nat)
       (evs final : List DoodleEvent),
       (inModuleCalls g cur).length ≤ MAX_CALL_BRANCHING →
       doodleLoop g (fuel + 1) (cur :: rest) cons evs = some final →
       (∀ next ∈ inModuleCalls g cur, edgeEvent g cur next ∈ final) ∧
       (∀ next ∈ leafIPCCalls g cur, edgeEvent g cur next ∈ final)) ∧
    (∀ (g : DoodleGraph) (fuel : Nat) (cur : Nat) (rest cons : List Nat)
       (evs final : List DoodleEvent),
       MAX_CALL_BRANCHING < (inModuleCalls g cur).length →
       doodleLoop g (fuel + 1) (cur :: rest) cons evs = some final →
       DoodleEvent.style cur ∈ final) := by
  constructor
  · intro g fuel cur rest cons evs final hle h
    rw [doodleLoop] at h
    simp only [] at h
    rw [if_neg (Nat.not_lt.mpr hle)] at h
    constructor
    · intro next hn
      refine doodleLoop_events_mono g fuel _ _ _ final h _ ?_
      exact List.mem_append_left _
        (traverseCalls_edges g cur _ rest cons evs next hn)
    · intro next hn
      refine doodleLoop_events_mono g fuel _ _ _ final h _ ?_
      exact List.mem_append_right _ (List.mem_map_of_mem _ hn)
  · intro g fuel cur rest cons evs final hgt h
    rw [doodleLoop] at h
    simp only [] at h
    rw [if_pos hgt] at h
    exact doodleLoop_events_mono g fuel _ _ _ final h _
      (List.mem_append_right _ (List.mem_singleton.mpr rfl))

/-- Witness for C9 (amended): in the `gSmall` doodle the root's two in-scope
edges, symbol 1's in-scope back-edge, and symbol 1's generated-IPC leaf edge
all appear in the final trace. -/
theorem c9_witness :
    doodleCalls gSmall 9 = some c9evs ∧
    DoodleEvent.edge 0 1 ∈ c9evs ∧ DoodleEvent.edge 0 2 ∈ c9evs ∧
    DoodleEvent.edge 1 0 ∈ c9evs ∧ DoodleEvent.edge 1 9 ∈ c9evs := by
  refine ⟨rfl, ?_, ?_, ?_, ?_⟩
  · exact (c9_amended.1 gSmall 8 0 [] [] [DoodleEvent.enqueue 0] c9evs
      (by decide) rfl).1 1 (by decide)
  · exact (c9_amended.1 gSmall 8 0 [] [] [DoodleEvent.enqueue 0] c9evs
      (by decide) rfl).1 2 (by decide)
  · exact (c9_amended.1 gSmall 7 1 [2] [1, 2]
      [DoodleEvent.enqueue 0, DoodleEvent.edge 0 1, DoodleEvent.enqueue 1,
       DoodleEvent.edge 0 2, DoodleEvent.enqueue 2] c9evs
      (by decide) rfl).1 0 (by decide)
  · exact (c9_amended.1 gSmall 7 1 [2] [1, 2]
      [DoodleEvent.enqueue 0, DoodleEvent.edge 0 1, DoodleEvent.enqueue 1,
       DoodleEvent.edge 0 2, DoodleEvent.enqueue 2] c9evs
      (by decide) rfl).2 9 (by decide)

/-- Counterexample to C9 as stated ("every edge discovered at a visited
symbol is reflected via ensureEdge"): the root of `gBranch13` is visited and
13 in-scope calls are discovered at it, yet the final trace contains no edge
event at all. -/
theorem c9_counterexample :
    doodleCalls gBranch13 5 =
      some [DoodleEvent.enqueue 0, DoodleEvent.style 0] ∧
    (inModuleCalls gBranch13 0).length = 13 ∧
    [DoodleEvent.enqueue 0, DoodleEvent.style 0].filter isEdge = [] := by
  refine ⟨by decide, by decide, rfl⟩

/-- C10 (amended): when a deferred call-edge block carries an explicit
instance group, the target node is looked up only in that group's
symbol-to-node map — the global fallback is consulted only when there is no
explicit group (where the resolution matches the spec's group-then-global
rule); an unresolvable call identifier or call target appends no edge, and a
resolved target with a common ancestor appends exactly the one edge. -/
theorem c10_amended :
    (∀ (st : GenState) (p : Nat) (ig : IGroupInfo) (callSym : Nat),
       resolveCallTarget st p (some ig) callSym =
         alistFind ig.symToNode callSym) ∧
    (∀ (st : GenState) (p callSym : Nat),
       resolveCallTarget st p none callSym =
         resolveCallTargetSpec st p none callSym) ∧
    (∀ (fcaFuel : Nat) (st : GenState) (p : Nat) (eg : Option IGroupInfo)
       (callName : String),
       idSymGet st.idToSym callName = none →
       (edgeCommon fcaFuel st p eg callName).edges = st.edges) ∧
    (∀ (fcaFuel : Nat) (st : GenState) (p : Nat) (eg : Option IGroupInfo)
       (callName : String) (callSym : Nat),
       idSymGet st.idToSym callName = some callSym →
       resolveCallTarget st p eg callSym = none →
       (edgeCommon fcaFuel st p eg callName).edges = st.edges) ∧
    (∀ (fcaFuel : Nat) (st : GenState) (p : Nat) (eg : Option IGroupInfo)
       (callName : String) (callSym otherNode anc : Nat),
       idSymGet st.idToSym callName = some callSym →
       resolveCallTarget st p eg callSym = some otherNode →
       findCommonAncestor st.nodeParent fcaFuel (some p) (some otherNode) =
         some anc →
       (edgeCommon fcaFuel st p eg callName).edges =
         st.edges ++ [(anc, p, some otherNode)]) := by
  refine ⟨?_, ?_, ?_, ?_, ?_⟩
  · intro st p ig callSym
    rfl
  · intro st p callSym
    unfold resolveCallTarget resolveCallTargetSpec
    cases hpg : st.nodeInstanceGroup p with
    | none => rfl
    | some pgName =>
      cases hg : alistFind st.instanceGroupsByName pgName with
      | none => simp [hg]
      | some pg =>
        cases hn : alistFind pg.symToNode callSym with
        | none => simp [hg, hn]
        | some n => simp [hg, hn]
  · intro fcaFuel st p eg callName hid
    unfold edgeCommon
    rw [hid]
  · intro fcaFuel st p eg callName callSym hid hres
    unfold edgeCommon
    rw [hid]
    simp only []
    rw [hres]
    rfl
  · intro fcaFuel st p eg callName callSym otherNode anc hid hres hanc
    unfold edgeCommon
    rw [hid]
    simp only []
    rw [hres]
    simp only [Option.isNone_some, Bool.false_eq_true, if_false]
    rw [hanc]

/-- Witness for C10 (amended): in `genStG`, the explicit empty group `"G"`
resolves nothing for symbol 7; without an explicit group the resolution
matches the spec rule and yields node 5; an undefined call id and an
unresolvable target append no edge; and an implicit-group edge for `"T"` is
appended under the common ancestor 3. -/
theorem c10_witness :
    resolveCallTarget genStG 1 (some ⟨"G", none, []⟩) 7 =
      alistFind (IGroupInfo.mk "G" none []).symToNode 7 ∧
    resolveCallTarget genStG 1 none 7 = resolveCallTargetSpec genStG 1 none 7 ∧
    (edgeCommon 3 genStG 1 none "U").edges = genStG.edges ∧
    (edgeCommon 3 genStG 1 (some ⟨"G", none, []⟩) "T").edges = genStG.edges ∧
    (edgeCommon 3 genStG 1 none "T").edges =
      genStG.edges ++ [(3, 1, some 5)] := by
  refine ⟨c10_amended.1 genStG 1 ⟨"G", none, []⟩ 7,
    c10_amended.2.1 genStG 1 7,
    c10_amended.2.2.1 3 genStG 1 none "U" (by decide),
    c10_amended.2.2.2.1 3 genStG 1 (some ⟨"G", none, []⟩) "T" 7 (by decide)
      (by decide),
    c10_amended.2.2.2.2 3 genStG 1 none "T" 7 5 3 (by decide) (by decide)
      (by decide)⟩

/-- Counterexample to C10 as stated (group lookup "falling back to the
global symbol-to-node map"): with the explicit instance group `"G"` whose
map is empty, the code performs no global fallback — the deferred block for
`"T"` appends no edge and the target resolves to nothing — even though the
spec's group-then-global rule resolves node 5, which has common ancestor 3
with the parent node. -/
theorem c10_counterexample :
    (processDeferredBlock 3 genStG (.edgeInstanceCall "G" "T") 1).edges =
      [] ∧
    resolveCallTarget genStG 1 (some ⟨"G", none, []⟩) 7 = none ∧
    resolveCallTargetSpec genStG 1 (some ⟨"G", none, []⟩) 7 = some 5 ∧
    findCommonAncestor genStG.nodeParent 3 (some 1) (some 5) = some 3 := by
  refine ⟨by decide, by decide, by decide, by decide⟩

end Grokysis
